import Mathlib

/-!
Verification development for the jianscript front end (`src/oxn.c`).

The C program is shallowly embedded: C structs become Lean structures,
in-place mutation becomes explicit state passing, machine `size_t`
arithmetic is `Nat` with explicit reduction modulo `2 ^ 64`, and the
`char` values produced by the C standard library are modelled as `Int`
with the (gcc, x86-64 Linux) signed-8-bit conversion made explicit.
Strings are byte lists (`Str`), since the C code manipulates raw bytes.
-/

set_option maxRecDepth 4000

namespace Oxn

/-- Byte strings: the C code stores identifier text as NUL-terminated byte
arrays; we model the payload bytes (each `< 256`, never `0`). -/
abbrev Str := List Nat

/-- Source location, mirroring `struct loc` (`Pos`, `Ln`, `Col`). -/
structure Loc where
  pos : Nat
  ln : Nat
  col : Nat
deriving DecidableEq, Repr

/-- Mirror of `struct span`: a start and an end location. -/
structure Span where
  left : Loc
  right : Loc
deriving DecidableEq, Repr

/-! ## Symbol-table hash (`map_hash`)

The C loop is `for (char c = *key; c != '\0'; c++) h = h * 31 + (size_t)c;`.
The increment `c++` advances the *character value*, not the key pointer, so
the loop reads only the first byte of the key and then walks the signed
8-bit value upward, wrapping from 127 to -128, until it reaches 0.
`(size_t)c` sign-extends; `h` wraps modulo `2 ^ 64`. -/

/-- The unsigned 8-bit patterns taken by the loop variable `c` when it
starts at the (nonzero) pattern `b`: `b, b+1, ..., 255`, after which `c`
wraps to `0` and the loop stops. -/
def charSeq (b : Nat) : List Nat :=
  (List.range (256 - b)).map (b + ·)

/-- Value of `(size_t)c` for a `char` whose unsigned 8-bit pattern is `c`:
nonnegative chars are unchanged, negative chars sign-extend to 64 bits. -/
def sizeTOfChar (c : Nat) : Nat :=
  if c < 128 then c else 2 ^ 64 - 256 + c

/-- One step of the hash accumulation `h = h * 31 + (size_t)c`, with the
`size_t` wraparound made explicit. -/
def hashStep (h c : Nat) : Nat :=
  (h * 31 + sizeTOfChar c) % 2 ^ 64

/-- Mirror of `map_hash`: because of the `c++` slip the result depends only
on the first byte of the key.  An empty key (first byte `0`) hashes to `0`. -/
def map_hash (key : Str) (cap : Nat) : Nat :=
  (match key with
   | [] => 0
   | b :: _ => if b = 0 then 0 else (charSeq b).foldl hashStep 0) % cap

/-- Modelled from the spec (the hash the spec describes, for comparison
with `map_hash`): "hash is a base-31 polynomial over the key's bytes",
i.e. fold `h := h * 31 + byte` over every byte of the key, with `size_t`
wraparound, then reduce modulo the capacity. -/
def specPolyHash (key : Str) (cap : Nat) : Nat :=
  (key.foldl (fun h c => (h * 31 + c) % 2 ^ 64) 0) % cap

/-! ## Symbol table (`struct map`) -/

/-- Mirror of `struct entry` minus the intrusive `Next` pointer: chains are
Lean lists, in front-to-back bucket order. -/
structure Entry where
  key : Str
  val : Int
deriving DecidableEq, Repr

/-- Mirror of `struct map`.  `buckets` is the allocated bucket array (its
length is the allocation size, which `map_Default` can make different from
`cap` — see `map_DefaultRaw`). -/
structure MapC where
  buckets : List (List Entry)
  size : Nat
  cap : Nat
deriving DecidableEq, Repr

/-- Mirror of `map_Default` as written: the bucket array is allocated with
the value `m->Cap` holds *before* initialization (`oldCap`), and only then
is `Cap` set to 8.  For a table whose memory previously held `oldCap ≠ 8`
the allocated length and the announced capacity disagree. -/
def map_DefaultRaw (oldCap : Nat) : MapC :=
  { buckets := List.replicate oldCap [], size := 0, cap := 8 }

/-- The benign instance of `map_DefaultRaw` in which the pre-initialization
capacity bits equal 8, so the allocation matches the announced capacity
(this is what the surrounding code plainly intends; the general defect is
settled with claim C10). -/
def map_Default : MapC := map_DefaultRaw 8

/-- Read bucket `i` (the C code indexes the allocated array directly;
reading past the allocation is undefined behaviour there, here it yields
the empty chain and the out-of-bounds condition is stated separately). -/
def bucketGet (bs : List (List Entry)) (i : Nat) : List Entry :=
  bs.getD i []

/-- Write bucket `i` (no-op when out of bounds, as for `bucketGet`). -/
def bucketSet (bs : List (List Entry)) (i : Nat) (c : List Entry) :
    List (List Entry) :=
  bs.set i c

/-- Mirror of the relink step inside `map_rehash`: entry `e` is pushed on
the front of new bucket `map_hash e.key newCap`. -/
def rehashPush (newCap : Nat) (nb : List (List Entry)) (e : Entry) :
    List (List Entry) :=
  bucketSet nb (map_hash e.key newCap) (e :: bucketGet nb (map_hash e.key newCap))

/-- Mirror of `map_rehash`: double the capacity and relink every entry,
walking buckets in index order and each chain front to back. -/
def map_rehash (m : MapC) : MapC :=
  let newCap := m.cap * 2
  let newBuckets :=
    m.buckets.foldl (fun nb chain => chain.foldl (rehashPush newCap) nb)
      (List.replicate newCap [])
  { buckets := newBuckets, size := m.size, cap := newCap }

/-- In-place update of the first chain entry with key `k` (the C `while`
loop in `map_Set`); the flag reports whether such an entry was found. -/
def chainSet (k : Str) (v : Int) : List Entry → List Entry × Bool
  | [] => ([], false)
  | e :: es =>
    if e.key = k then ({ key := e.key, val := v } :: es, true)
    else
      let r := chainSet k v es
      (e :: r.1, r.2)

/-- The part of `map_Set` after the load-factor check: either overwrite
the existing entry (returning `true`) or prepend a fresh one (returning
`false`). -/
def map_SetNoGrow (m : MapC) (key : Str) (v : Int) : MapC × Bool :=
  let i := map_hash key m.cap
  let r := chainSet key v (bucketGet m.buckets i)
  if r.2 then ({ m with buckets := bucketSet m.buckets i r.1 }, true)
  else
    ({ m with
        buckets := bucketSet m.buckets i ({ key := key, val := v } :: bucketGet m.buckets i),
        size := m.size + 1 }, false)

/-- Mirror of `map_Set`: rehash when `Size / Cap >= 1.0` (the `double`
division is exact for the sizes involved, so the test is `size ≥ cap`),
then update or insert. -/
def map_Set (m : MapC) (key : Str) (v : Int) : MapC × Bool :=
  map_SetNoGrow (if m.cap ≤ m.size then map_rehash m else m) key v

/-- Mirror of `map_Get`: search the chain of bucket `map_hash key cap`. -/
def map_Get (m : MapC) (key : Str) : Option Int :=
  ((bucketGet m.buckets (map_hash key m.cap)).find? (fun e => e.key = key)).map
    (fun e => e.val)

/-- Mirror of `map_Free` for the fields later code can still observe: the
bucket array is gone (`Buckets = NULL`); `Size` and `Cap` are left stale. -/
def map_Free (m : MapC) : MapC :=
  { m with buckets := [] }

/-- Mirror of `map_Merge`, with the memory events made observable.  The C
code walks `rhs` buckets in index order (chains front to back) and calls
`map_Set(lhs, key, val)`; when that returns `true` (key already in `lhs`)
the `rhs` key text is freed at once.  Afterwards `map_Free(rhs)` frees the
key text of every entry whose `Key` was *not* nulled — i.e. of exactly the
entries that were just linked into `lhs`.  The result is the merged map,
the list of key texts freed during the loop, and the list of key texts
freed by the final `map_Free` (these last ones are still referenced from
the merged map).  `mergeStep` is the loop body for one `rhs` entry. -/
def mergeStep (acc : MapC × List Str × List Str) (e : Entry) :
    MapC × List Str × List Str :=
  let s := map_Set acc.1 e.key e.val
  if s.2 then (s.1, acc.2.1 ++ [e.key], acc.2.2)
  else (s.1, acc.2.1, acc.2.2 ++ [e.key])

/-- Mirror of `map_Merge` proper: walk the `rhs` buckets in index order,
each chain front to back, feeding every entry to `mergeStep`. -/
def map_Merge (lhs rhs : MapC) : MapC × List Str × List Str :=
  rhs.buckets.foldl (fun acc chain => chain.foldl mergeStep acc) (lhs, [], [])

/-- All entries of the table, bucket by bucket (the abstraction used to
state preservation properties). -/
def mapEntries (m : MapC) : List Entry :=
  m.buckets.flatten

/-- Number of entries in the whole table carrying key `k`. -/
def countKey (m : MapC) (k : Str) : Nat :=
  (mapEntries m).countP (fun e => e.key = k)

/-! ## Ordered registry (`struct node`, AVL tree) -/

/-- Mirror of the intrusive `struct node`, generalized over the payload the
node is embedded in (`struct Param`, `struct Def`).  `height` mirrors the
C `int Height`. -/
inductive Tree (α : Type) where
  | nil : Tree α
  | node (left : Tree α) (key : Int) (height : Int) (a : α) (right : Tree α)
deriving DecidableEq, Repr

/-- Mirror of `node_height`: 0 for the null tree, else the stored height. -/
def node_height {α : Type} : Tree α → Int
  | .nil => 0
  | .node _ _ h _ _ => h

/-- Key of the root node; the C code dereferences `root->Key` only when the
subtree is known nonempty, the default 0 is never reached there. -/
def treeKeyD {α : Type} : Tree α → Int
  | .nil => 0
  | .node _ k _ _ _ => k

/-- Mirror of `node_rightRotate` (heights of the two rotated nodes are
recomputed exactly as in the C code; a shape the C would crash on is
returned unchanged and is unreachable from `tree_Insert`). -/
def node_rightRotate {α : Type} : Tree α → Tree α
  | .node (.node yl yk _ ya yr) xk _ xa xr =>
    let x := Tree.node yr xk (max (node_height yr) (node_height xr) + 1) xa xr
    Tree.node yl yk (max (node_height yl) (node_height x) + 1) ya x
  | t => t

/-- Mirror of `node_leftRotate`. -/
def node_leftRotate {α : Type} : Tree α → Tree α
  | .node xl xk _ xa (.node yl yk _ ya yr) =>
    let x := Tree.node xl xk (max (node_height xl) (node_height yl) + 1) xa yl
    Tree.node x yk (max (node_height x) (node_height yr) + 1) ya yr
  | t => t

/-- The tail of `tree_Insert` after the recursive call: recompute the root
height, compute the balance, and apply the four rotation cases, comparing
the inserted key with the child keys exactly as the C code does. -/
def insStep {α : Type} (t : Tree α) (k : Int) : Tree α :=
  match t with
  | .nil => .nil
  | .node l rk _ ra r =>
    let h := max (node_height l) (node_height r) + 1
    let root := Tree.node l rk h ra r
    let b := node_height l - node_height r
    if 1 < b ∧ k < treeKeyD l then node_rightRotate root
    else if b < -1 ∧ treeKeyD r < k then node_leftRotate root
    else if 1 < b ∧ treeKeyD l < k then
      node_rightRotate (Tree.node (node_leftRotate l) rk h ra r)
    else if b < -1 ∧ k < treeKeyD r then
      node_leftRotate (Tree.node l rk h ra (node_rightRotate r))
    else root

/-- Mirror of `tree_Insert`.  At every call site the inserted node is fresh
(`node_Default`: no children, height 1), so the embedding takes the key and
payload of that fresh node.  An equal key returns the tree unchanged. -/
def tree_Insert {α : Type} : Tree α → Int → α → Tree α
  | .nil, k, a => .node .nil k 1 a .nil
  | .node l rk rh ra r, k, a =>
    if k < rk then insStep (Tree.node (tree_Insert l k a) rk rh ra r) k
    else if rk < k then insStep (Tree.node l rk rh ra (tree_Insert r k a)) k
    else .node l rk rh ra r

/-- Mirror of `tree_Iter`: in-order traversal threading the callback state
(the C `void *data`) left to right. -/
def tree_Iter {α σ : Type} (f : σ → Int → α → σ) : σ → Tree α → σ
  | s, .nil => s
  | s, .node l k _ a r => tree_Iter f (f (tree_Iter f s l) k a) r

/-- In-order list of (key, payload) pairs: the sequence `tree_Iter` visits. -/
def inorder {α : Type} : Tree α → List (Int × α)
  | .nil => []
  | .node l k _ a r => inorder l ++ (k, a) :: inorder r

/-- In-order key sequence of the tree. -/
def inorderKeys {α : Type} (t : Tree α) : List Int :=
  (inorder t).map (fun p => p.1)

/-! ## Cursor and combinator engine (`struct Source`, `parseAny`) -/

/-- Mirror of `struct Source`: the backing text (the C `FILE *` contents),
the cursor location, and the three flags.  Bytes are the unsigned file
bytes; `source_Peek` converts them to the signed `char` the C code sees. -/
structure Source where
  text : List Nat
  loc : Loc
  failed : Bool
  atom : Bool
  nl : Bool
deriving DecidableEq, Repr

/-- Mirror of `source_Init` on an open file holding `t`. -/
def source_Init (t : List Nat) : Source :=
  { text := t, loc := { pos := 0, ln := 1, col := 1 },
    failed := false, atom := false, nl := false }

/-- Mirror of `source_Peek`: the byte at the cursor as a C `char` (signed
8-bit), `-1` at end of input. -/
def source_Peek (s : Source) : Int :=
  match s.text.get? s.loc.pos with
  | none => -1
  | some c => if c < 128 then (c : Int) else (c : Int) - 256

/-- Mirror of `loc_NextLine`. -/
def loc_NextLine (l : Loc) : Loc :=
  { pos := l.pos + 1, ln := l.ln + 1, col := 1 }

/-- Mirror of `loc_NextColumn`. -/
def loc_NextColumn (l : Loc) : Loc :=
  { pos := l.pos + 1, ln := l.ln, col := l.col + 1 }

/-- Mirror of `source_Next`: the consumed character together with the
advanced cursor (at end of input the cursor does not move). -/
def source_Next (s : Source) : Int × Source :=
  let c := source_Peek s
  if c < 0 then (-1, s)
  else if c = 10 then (c, { s with loc := loc_NextLine s.loc })
  else (c, { s with loc := loc_NextColumn s.loc })

/-- Mirror of `source_Back`: restore a saved location and clear failure. -/
def source_Back (s : Source) (l : Loc) : Source :=
  { s with loc := l, failed := false }

/-- Mirror of `source_Eat`: consume one character and fail if it is not
`c` (the cursor stays advanced either way). -/
def source_Eat (s : Source) (c : Int) : Source :=
  let n := source_Next s
  if n.1 ≠ c then { n.2 with failed := true } else n.2

/-- The C `isspace` on the ASCII bytes this grammar can meet. -/
def isspaceI (c : Int) : Bool :=
  c = 32 ∨ (9 ≤ c ∧ c ≤ 13)

/-- The C `islower(c) && isalpha(c)` (equivalent to `islower` on ASCII). -/
def islowerI (c : Int) : Bool :=
  97 ≤ c ∧ c ≤ 122

/-- Loop body of `source_SkipSpaces`; the fuel is an upper bound on the
characters left (each iteration consumes one, so `text.length` always
suffices). -/
def skipGo : Nat → Source → Source
  | 0, s => s
  | fuel + 1, s =>
    let c := source_Peek s
    if c < 0 ∨ (s.nl ∧ c = 10) ∨ ¬ isspaceI c then s
    else skipGo fuel (source_Eat s c)

/-- Mirror of `source_SkipSpaces`. -/
def source_SkipSpaces (s : Source) : Source :=
  skipGo s.text.length s

/-- A combinator-engine parser as `parseAny` sees it: the behaviour half of
`struct Parser` with its context already applied (outputs flow through the
context pointers and are not visible to `parseAny`). -/
abbrev ParserF := Source → Source

/-- Loop of `parseAny` with the saved location `l` (`struct loc loc = s->Loc`)
made explicit: try each branch, return the first success, restore the
cursor to `l` after every failure, and mark failure when no branch is
left. -/
def parseAnyGo (l : Loc) : List ParserF → Source → Source
  | [], s => { s with failed := true }
  | p :: ps, s =>
    let s' := p s
    if s'.failed then parseAnyGo l ps (source_Back s' l) else s'

/-- Mirror of `parseAny` (the alternation combinator). -/
def parseAny (ps : List ParserF) (s : Source) : Source :=
  parseAnyGo s.loc ps s

/-- The cursor handed to branch `i` of `parseAny ps s`: branch 0 receives
`s` itself, and each later branch receives the previous branch's result
restored to the saved location. -/
def branchInputs : List ParserF → Source → Nat → Source
  | _, s, 0 => s
  | [], s, _ + 1 => s
  | p :: ps, s, i + 1 => branchInputs ps (source_Back (p s) s.loc) i

/-! ## AST (`enum ExprKind`, `struct Expr`, `struct Def`, `struct Program`) -/

/-- Payload of a `struct Param` registry node: the parameter's name span,
paired with the bytes that span denotes (the C code rereads them from the
file with `source_Text` whenever it needs them). -/
structure Par where
  name : Str
  sp : Span
deriving DecidableEq, Repr

/-- Mirror of `struct Expr` (tagged union).  `unresolved` carries the
identifier span together with its text, as for `Par`. -/
inductive Expr where
  | app (f : Expr) (args : List Expr)
  | ite (i : Expr) (t : Expr) (e : Expr)
  | lam (params : Tree Par) (body : Expr)
  | num (sp : Span)
  | unit
  | fls
  | tru
  | unresolved (name : Str) (sp : Span)
  | resolved (id : Int)
deriving Repr

/-- Mirror of `enum BodyKind`. -/
inductive BodyKind where
  | fn
  | val
deriving DecidableEq, Repr

/-- Payload of a `struct Def` registry node. -/
structure DefData where
  name : Str
  sp : Span
  params : Tree Par
  kind : BodyKind
  body : Expr
deriving Repr

/-- Mirror of `struct Program`: the registry of top-level definitions. -/
abbrev Program := Tree DefData

/-! ## Resolver (`enum Resolution`, `struct Resolver`) -/

/-- Mirror of `enum Resolution`. -/
inductive Resolution where
  | ok
  | notFound
  | dup
deriving DecidableEq, Repr

/-- Mirror of `struct Resolver` (minus the source handle: name text is
already attached to the AST nodes).  `nameSpan`/`nameText` start out unset
(the C leaves them uninitialized / NULL). -/
structure Resolver where
  globals : MapC
  locals : MapC
  params : MapC
  state : Resolution
  nameSpan : Option Span
  nameText : Option Str
deriving Repr

/-- Mirror of `Resolver_Init` (the C initializes only `Globals`, `State`
and `NameText`; `Locals`/`Params` are first written by
`Resolver_insertLocals`, modelled here as already-default tables). -/
def Resolver_Init : Resolver :=
  { globals := map_Default, locals := map_Default, params := map_Default,
    state := .ok, nameSpan := none, nameText := none }

/-- Mirror of `Resolver_validateLocal` (callback of the first `tree_Iter`
pass in `Resolver_insertLocals`): skip when the state is not OK, otherwise
insert the parameter into the scratch `Params` table and flag a duplicate
when the name was already present. -/
def Resolver_validateLocal (r : Resolver) (key : Int) (p : Par) : Resolver :=
  if r.state ≠ .ok then r
  else
    let s := map_Set r.params p.name key
    if s.2 then
      { r with params := s.1, state := .dup, nameSpan := some p.sp,
               nameText := some p.name }
    else { r with params := s.1 }

/-- Mirror of `Resolver_insertLocal` (callback of the second `tree_Iter`
pass): skip when not OK, otherwise re-insert the parameter into `Locals`
(overwriting the entry the merge just moved there with the same value). -/
def Resolver_insertLocal (r : Resolver) (key : Int) (p : Par) : Resolver :=
  if r.state ≠ .ok then r
  else { r with locals := (map_Set r.locals p.name key).1 }

/-- Mirror of `Resolver_insertLocals`: reset `Params`, validate the
parameter list for duplicates, and on success replace `Locals` by a fresh
table holding exactly these parameters (merge, then the re-insert pass). -/
def Resolver_insertLocals (r : Resolver) (params : Tree Par) : Resolver :=
  let r := { r with params := map_Default }
  let r := tree_Iter (fun r k p => Resolver_validateLocal r k p) r params
  if r.state ≠ .ok then r
  else
    let r := { r with locals := map_Default }
    let mg := map_Merge r.locals r.params
    let r := { r with locals := mg.1, params := map_Free r.params }
    tree_Iter (fun r k p => Resolver_insertLocal r k p) r params

mutual

/-- Mirror of `Resolver_Expr`.  Mutation of the AST node becomes returning
the rewritten expression.  Note the faithful absence of a state check when
iterating application arguments (`slice_Iter` with `Resolver_resolveArg`
visits every argument unconditionally).  The `resolved` case is
`unreachable()` in C (the process aborts); it is returned unchanged here
and the theorems below only concern expressions without `resolved` nodes,
as produced by the parser. -/
def Resolver_Expr (r : Resolver) : Expr → Resolver × Expr
  | .app f args =>
    let pf := Resolver_Expr r f
    if pf.1.state ≠ .ok then (pf.1, .app pf.2 args)
    else
      let pa := Resolver_args pf.1 args
      (pa.1, .app pf.2 pa.2)
  | .ite i t e =>
    let pi := Resolver_Expr r i
    if pi.1.state ≠ .ok then (pi.1, .ite pi.2 t e)
    else
      let pt := Resolver_Expr pi.1 t
      if pt.1.state ≠ .ok then (pt.1, .ite pi.2 pt.2 e)
      else
        let pe := Resolver_Expr pt.1 e
        (pe.1, .ite pi.2 pt.2 pe.2)
  | .lam params body =>
    let r1 := Resolver_insertLocals r params
    if r1.state ≠ .ok then (r1, .lam params body)
    else
      let pb := Resolver_Expr r1 body
      (pb.1, .lam params pb.2)
  | .unresolved name sp =>
    match map_Get r.locals name with
    | some id => (r, .resolved id)
    | none =>
      match map_Get r.globals name with
      | some id => (r, .resolved id)
      | none =>
        ({ r with state := .notFound, nameSpan := some sp,
                  nameText := some name }, .unresolved name sp)
  | .num sp => (r, .num sp)
  | .unit => (r, .unit)
  | .fls => (r, .fls)
  | .tru => (r, .tru)
  | .resolved id => (r, .resolved id)

/-- Mirror of `slice_Iter` over the argument slice with
`Resolver_resolveArg`: every argument is visited, with no state check. -/
def Resolver_args (r : Resolver) : List Expr → Resolver × List Expr
  | [] => (r, [])
  | a :: rest =>
    let pa := Resolver_Expr r a
    let pr := Resolver_args pa.1 rest
    (pr.1, pa.2 :: pr.2)

end

/-- Mirror of `Resolver_insertGlobal` (callback of `Resolver_Program`):
skip when not OK; insert the definition name into `Globals` (flagging a
duplicate), install its parameters as `Locals`, resolve the body, and free
the per-definition `Locals` table. -/
def Resolver_insertGlobal (r : Resolver) (key : Int) (d : DefData) :
    Resolver × DefData :=
  if r.state ≠ .ok then (r, d)
  else
    let s := map_Set r.globals d.name key
    if s.2 then
      ({ r with globals := s.1, state := .dup, nameSpan := some d.sp,
                nameText := some d.name }, d)
    else
      let r := { r with globals := s.1 }
      let r := Resolver_insertLocals r d.params
      if r.state ≠ .ok then (r, d)
      else
        let pb := Resolver_Expr r d.body
        ({ pb.1 with locals := map_Free pb.1.locals },
         { d with body := pb.2 })

/-- In-order traversal of a tree that both threads state and rewrites the
payloads: the shape `tree_Iter` takes when its callback mutates the node
it is handed (as `Resolver_insertGlobal` rewrites each definition). -/
def tree_IterMap {α σ : Type} (f : σ → Int → α → σ × α) :
    σ → Tree α → σ × Tree α
  | s, .nil => (s, .nil)
  | s, .node l k h a r =>
    let pl := tree_IterMap f s l
    let pa := f pl.1 k a
    let pr := tree_IterMap f pa.1 r
    (pr.1, .node pl.2 k h pa.2 pr.2)

/-- Mirror of `Resolver_Program`: `tree_Iter` over the definition registry
with `Resolver_insertGlobal`. -/
def Resolver_Program (r : Resolver) (p : Program) : Resolver × Program :=
  tree_IterMap (fun r k d => Resolver_insertGlobal r k d) r p

/-! ## Grammar (`word`, `range`, `parseLowercase`, `Expr_*`, `Fn`, `Val`,
`Def`, `ParseProgram`)

The C grammar dispatches through `struct Parser` function pointers whose
contexts carry output pointers; the embedding renders each grammar rule as
a function returning its product, with `parseAll`'s implicit
whitespace-skipping and `parseAny`'s save/restore inlined at each use
exactly as the C combinators execute them.  The process-global `nextUID`
counter is threaded explicitly (it advances even across failed backtracked
attempts, as in C).  Recursion through the expression grammar is bounded
by a fuel parameter; the C recursion consumes input instead, and all
concrete inputs used below are parsed with ample fuel. -/

/-- Mirror of `source_Text` for a span: the bytes `[left.pos, right.pos)`
of the backing text (`fgets` of `right.pos - left.pos + 1` reads one byte
fewer than that size). -/
def textOf (t : List Nat) (sp : Span) : Str :=
  (t.drop sp.left.pos).take (sp.right.pos - sp.left.pos)

/-- The implicit skip `parseAll`/`many` perform between elements when the
cursor is not in atomic mode. -/
def skipIfNotAtom (s : Source) : Source :=
  if s.atom then s else source_SkipSpaces s

/-- Mirror of the `word` parser behaviour: eat the characters of `w` in
order, stopping at the first mismatch (the cursor stays advanced). -/
def wordP : List Int → Source → Source
  | [], s => s
  | c :: cs, s =>
    let s' := source_Eat s c
    if s'.failed then s' else wordP cs s'

/-- Mirror of the `range` parser behaviour (`AsciiDigit` is `range '0' '9'`). -/
def rangeP (a b : Int) (s : Source) : Source :=
  let c := source_Peek s
  if c < a ∨ b < c then { s with failed := true }
  else source_Eat s c

/-- Loop of `parseLowercase`: keep eating while the character is a
lowercase letter or `_` (fuel bounds the characters left). -/
def lcGo : Nat → Source → Source
  | 0, s => s
  | fuel + 1, s =>
    let c := source_Peek s
    if ¬ islowerI c ∧ c ≠ 95 then s
    else lcGo fuel (source_Eat s c)

/-- Mirror of `parseLowercase`: a lowercase letter followed by lowercase
letters or underscores; produces the span of the lexeme. -/
def parseLowercase (s : Source) : Source × Option Span :=
  let start := s.loc
  let first := source_Peek s
  if first < 0 ∨ ¬ islowerI first then ({ s with failed := true }, none)
  else
    let s1 := lcGo s.text.length (source_Eat s first)
    (s1, some { left := start, right := s1.loc })

/-- Mirror of the loop of `decimalDigits`'s `many(all(option(Under),
AsciiDigit))`. -/
def manyDigitsGo : Nat → Source → Source
  | 0, s => s
  | fuel + 1, s =>
    let l := s.loc
    let t :=
      let l2 := s.loc
      let t0 := wordP [95] s
      if t0.failed then source_Back t0 l2 else t0
    let s1 := rangeP 48 57 (skipIfNotAtom t)
    if s1.failed then source_Back s1 l
    else manyDigitsGo fuel (skipIfNotAtom s1)

/-- Mirror of `decimalDigits`: a digit, then more digits each optionally
preceded by one `_`; produces the span of the literal. -/
def decimalDigits (s : Source) : Source × Option Span :=
  let l := s.loc
  let s1 := rangeP 48 57 s
  if s1.failed then (s1, none)
  else
    let s2 := manyDigitsGo s.text.length (skipIfNotAtom s1)
    (s2, some { left := l, right := s2.loc })

/-- Mirror of `Number` = `decimalNumber` = `parseAtom(decimalDigits)`:
run the digits atomically, restoring the outer atomic mode afterward. -/
def numberP (s : Source) : Source × Option Span :=
  let a := s.atom
  let r := decimalDigits { s with atom := true }
  ({ r.1 with atom := a }, r.2)

/-- Mirror of `Expr_ref`: a lowercase identifier becomes an
`Expr_Unresolved` node carrying its span. -/
def refP (s : Source) : Source × Option Expr :=
  let r := parseLowercase s
  if r.1.failed then (r.1, none)
  else
    match r.2 with
    | some sp => (r.1, some (.unresolved (textOf r.1.text sp) sp))
    | none => (r.1, none)

/-- Mirror of `Param`: on success the parameter receives the next UID and
is handed to `tree_Insert` on the current parameter registry. -/
def paramP (s : Source) (u : Int) : Source × Int × Option (Int × Par) :=
  let r := parseLowercase s
  if r.1.failed then (r.1, u, none)
  else
    match r.2 with
    | some sp =>
      (r.1, u + 1, some (u + 1, { name := textOf r.1.text sp, sp := sp }))
    | none => (r.1, u, none)

/-- Mirror of `many(all(Comma, Param))` inside `Params`; returns the
parameters inserted (insertion happens per-parameter, so the list is
meaningful even when a later element of the enclosing sequence fails). -/
def manyOtherParamsGo : Nat → Source → Int → Source × Int × List (Int × Par)
  | 0, s, u => (s, u, [])
  | fuel + 1, s, u =>
    let l := s.loc
    let t1 := wordP [44] s
    if t1.failed then (source_Back t1 l, u, [])
    else
      let r := paramP (skipIfNotAtom t1) u
      if r.1.failed then (source_Back r.1 l, r.2.1, [])
      else
        let rest := manyOtherParamsGo fuel (skipIfNotAtom r.1) r.2.1
        (rest.1, rest.2.1, r.2.2.toList ++ rest.2.2)

/-- Mirror of `Params`: either `()` or `(` param (`,` param)* `)`.  The
returned list holds every parameter actually inserted, whether or not the
whole rule succeeded (the C inserts into the caller's registry as it
goes). -/
def paramsP (s : Source) (u : Int) : Source × Int × List (Int × Par) :=
  let l := s.loc
  let b1 :=
    let t1 := wordP [40] s
    if t1.failed then t1 else wordP [41] (skipIfNotAtom t1)
  if ¬ b1.failed then (b1, u, [])
  else
    let s2 := source_Back b1 l
    let t1 := wordP [40] s2
    if t1.failed then ({ source_Back t1 l with failed := true }, u, [])
    else
      let r1 := paramP (skipIfNotAtom t1) u
      if r1.1.failed then
        ({ source_Back r1.1 l with failed := true }, r1.2.1, [])
      else
        let rm := manyOtherParamsGo s.text.length (skipIfNotAtom r1.1) r1.2.1
        let t2 := wordP [41] (skipIfNotAtom rm.1)
        let ps := r1.2.2.toList ++ rm.2.2
        if t2.failed then ({ source_Back t2 l with failed := true }, rm.2.1, ps)
        else (t2, rm.2.1, ps)

/-- Build the registry tree from parameters in insertion order (the C
inserts each into the tree at the moment it parses). -/
def buildTree {α : Type} (ps : List (Int × α)) : Tree α :=
  ps.foldl (fun t ka => tree_Insert t ka.1 ka.2) .nil

/-- Mirror of `parseEnd`: newline-sensitively skip spaces, then `;` or a
newline, restoring the sensitivity flag afterward. -/
def parseEnd (s : Source) : Source :=
  let sv := s.nl
  let s1 := source_SkipSpaces { s with nl := true }
  let l := s1.loc
  let t1 := wordP [59] s1
  if ¬ t1.failed then { t1 with nl := sv }
  else
    let t2 := wordP [10] (source_Back t1 l)
    if ¬ t2.failed then { t2 with nl := sv }
    else { source_Back t2 l with failed := true, nl := sv }

mutual

/-- Mirror of `ParseExpr`: the ordered alternation over the nine expression
branches, restoring the cursor between attempts as `parseAny` does. -/
def exprP : Nat → Source → Int → Source × Int × Option Expr
  | 0, s, u => ({ s with failed := true }, u, none)
  | fuel + 1, s, u =>
    let l := s.loc
    let r1 := appP fuel s u
    if ¬ r1.1.failed then r1 else
    let r2 := iteP fuel (source_Back r1.1 l) r1.2.1
    if ¬ r2.1.failed then r2 else
    let r3 := lamP fuel (source_Back r2.1 l) r2.2.1
    if ¬ r3.1.failed then r3 else
    let r4 := numberP (source_Back r3.1 l)
    if ¬ r4.1.failed then
      (r4.1, r3.2.1, (r4.2.map (fun sp => Expr.num sp)))
    else
    let r5 := wordP [40, 41] (source_Back r4.1 l)
    if ¬ r5.failed then (r5, r3.2.1, some .unit) else
    let r6 := wordP [102, 97, 108, 115, 101] (source_Back r5 l)
    if ¬ r6.failed then (r6, r3.2.1, some .fls) else
    let r7 := wordP [116, 114, 117, 101] (source_Back r6 l)
    if ¬ r7.failed then (r7, r3.2.1, some .tru) else
    let r8 := refP (source_Back r7 l)
    if ¬ r8.1.failed then (r8.1, r3.2.1, r8.2) else
    let r9 := parenP fuel (source_Back r8.1 l) r3.2.1
    if ¬ r9.1.failed then r9 else
    ({ source_Back r9.1 l with failed := true }, r9.2.1, none)

/-- Mirror of `Expr_app`: callee (`Expr_ref` or `Expr_paren`, ordered
choice) followed by an argument list. -/
def appP : Nat → Source → Int → Source × Int × Option Expr
  | 0, s, u => ({ s with failed := true }, u, none)
  | fuel + 1, s, u =>
    let l := s.loc
    let rf :=
      let t1 := refP s
      if ¬ t1.1.failed then (t1.1, u, t1.2)
      else
        let t2 := parenP fuel (source_Back t1.1 l) u
        if ¬ t2.1.failed then t2
        else ({ source_Back t2.1 l with failed := true }, t2.2.1, none)
    if rf.1.failed then (rf.1, rf.2.1, none)
    else
      let ra := argsP fuel (skipIfNotAtom rf.1) rf.2.1
      if ra.1.failed then (ra.1, ra.2.1, none)
      else (ra.1, ra.2.1, some (.app (rf.2.2.getD .unit) ra.2.2))

/-- Mirror of `Args`: either `()` or `(` expr (`,` expr)* `)`. -/
def argsP : Nat → Source → Int → Source × Int × List Expr
  | 0, s, u => ({ s with failed := true }, u, [])
  | fuel + 1, s, u =>
    let l := s.loc
    let b1 :=
      let t1 := wordP [40] s
      if t1.failed then t1 else wordP [41] (skipIfNotAtom t1)
    if ¬ b1.failed then (b1, u, [])
    else
      let s2 := source_Back b1 l
      let t1 := wordP [40] s2
      if t1.failed then ({ source_Back t1 l with failed := true }, u, [])
      else
        let r1 := exprP fuel (skipIfNotAtom t1) u
        if r1.1.failed then
          ({ source_Back r1.1 l with failed := true }, r1.2.1, [])
        else
          let rm := manyOtherArgsP fuel (skipIfNotAtom r1.1) r1.2.1
          let t2 := wordP [41] (skipIfNotAtom rm.1)
          if t2.failed then
            ({ source_Back t2 l with failed := true }, rm.2.1, [])
          else (t2, rm.2.1, r1.2.2.toList ++ rm.2.2)

/-- Mirror of `many(all(Comma, Arg))` inside `Args`. -/
def manyOtherArgsP : Nat → Source → Int → Source × Int × List Expr
  | 0, s, u => (s, u, [])
  | fuel + 1, s, u =>
    let l := s.loc
    let t1 := wordP [44] s
    if t1.failed then (source_Back t1 l, u, [])
    else
      let r := exprP fuel (skipIfNotAtom t1) u
      if r.1.failed then (source_Back r.1 l, r.2.1, [])
      else
        let rest := manyOtherArgsP fuel (skipIfNotAtom r.1) r.2.1
        (rest.1, rest.2.1, r.2.2.toList ++ rest.2.2)

/-- Mirror of `Expr_ite`: `if` expr `then` expr `else` expr. -/
def iteP : Nat → Source → Int → Source × Int × Option Expr
  | 0, s, u => ({ s with failed := true }, u, none)
  | fuel + 1, s, u =>
    let s1 := wordP [105, 102] s
    if s1.failed then (s1, u, none)
    else
      let r1 := exprP fuel (skipIfNotAtom s1) u
      if r1.1.failed then (r1.1, r1.2.1, none)
      else
        let s2 := wordP [116, 104, 101, 110] (skipIfNotAtom r1.1)
        if s2.failed then (s2, r1.2.1, none)
        else
          let r2 := exprP fuel (skipIfNotAtom s2) r1.2.1
          if r2.1.failed then (r2.1, r2.2.1, none)
          else
            let s3 := wordP [101, 108, 115, 101] (skipIfNotAtom r2.1)
            if s3.failed then (s3, r2.2.1, none)
            else
              let r3 := exprP fuel (skipIfNotAtom s3) r2.2.1
              if r3.1.failed then (r3.1, r3.2.1, none)
              else
                (r3.1, r3.2.1,
                 some (.ite (r1.2.2.getD .unit) (r2.2.2.getD .unit)
                        (r3.2.2.getD .unit)))

/-- Mirror of `Expr_lambda`: parameter list, `=>`, body. -/
def lamP : Nat → Source → Int → Source × Int × Option Expr
  | 0, s, u => ({ s with failed := true }, u, none)
  | fuel + 1, s, u =>
    let rp := paramsP s u
    if rp.1.failed then (rp.1, rp.2.1, none)
    else
      let s1 := wordP [61, 62] (skipIfNotAtom rp.1)
      if s1.failed then (s1, rp.2.1, none)
      else
        let rb := exprP fuel (skipIfNotAtom s1) rp.2.1
        if rb.1.failed then (rb.1, rb.2.1, none)
        else (rb.1, rb.2.1, some (.lam (buildTree rp.2.2) (rb.2.2.getD .unit)))

/-- Mirror of `Expr_paren`: `(` expr `)`. -/
def parenP : Nat → Source → Int → Source × Int × Option Expr
  | 0, s, u => ({ s with failed := true }, u, none)
  | fuel + 1, s, u =>
    let s1 := wordP [40] s
    if s1.failed then (s1, u, none)
    else
      let r := exprP fuel (skipIfNotAtom s1) u
      if r.1.failed then (r.1, r.2.1, none)
      else
        let s2 := wordP [41] (skipIfNotAtom r.1)
        if s2.failed then (s2, r.2.1, none)
        else (s2, r.2.1, r.2.2)

end

/-- The partially written `struct Def` record threaded through the `Fn`
and `Val` attempts: the C allocates one `Def` and lets both branches write
into it, so writes made by a failed `Fn` attempt (name span, inserted
parameters) survive into the `Val` attempt. -/
structure DefRec where
  name : Option Span
  params : List (Int × Par)
  kind : Option BodyKind
  ret : Option Expr
deriving Repr

/-- Mirror of `Fn`: `name params body`, then statement end, then
`Kind = Body_Fn`.  Each field of the shared record is written at the
moment the corresponding sub-parser succeeds. -/
def fnP (fuel : Nat) (s : Source) (u : Int) (d : DefRec) :
    Source × Int × DefRec :=
  let rn := parseLowercase s
  let d := match rn.2 with | some sp => { d with name := some sp } | none => d
  if rn.1.failed then (rn.1, u, d)
  else
    let rp := paramsP (skipIfNotAtom rn.1) u
    let d := { d with params := d.params ++ rp.2.2 }
    if rp.1.failed then (rp.1, rp.2.1, d)
    else
      let re := exprP fuel (skipIfNotAtom rp.1) rp.2.1
      let d := match re.2.2 with | some e => { d with ret := some e } | none => d
      if re.1.failed then (re.1, re.2.1, d)
      else
        let se := parseEnd re.1
        if se.failed then (se, re.2.1, d)
        else (se, re.2.1, { d with kind := some .fn })

/-- Mirror of `Val`: `name = expr`, then statement end, then
`Kind = Body_Val`. -/
def valP (fuel : Nat) (s : Source) (u : Int) (d : DefRec) :
    Source × Int × DefRec :=
  let rn := parseLowercase s
  let d := match rn.2 with | some sp => { d with name := some sp } | none => d
  if rn.1.failed then (rn.1, u, d)
  else
    let s1 := wordP [61] (skipIfNotAtom rn.1)
    if s1.failed then (s1, u, d)
    else
      let re := exprP fuel (skipIfNotAtom s1) u
      let d := match re.2.2 with | some e => { d with ret := some e } | none => d
      if re.1.failed then (re.1, re.2.1, d)
      else
        let se := parseEnd re.1
        if se.failed then (se, re.2.1, d)
        else (se, re.2.1, { d with kind := some .val })

/-- Commit a parsed definition: assign the next UID as its registry key
(the C does this after the `Fn`/`Val` alternation succeeds). -/
def mkDefData (t : List Nat) (d : DefRec) : DefData :=
  let sp := d.name.getD { left := { pos := 0, ln := 1, col := 1 },
                          right := { pos := 0, ln := 1, col := 1 } }
  { name := textOf t sp, sp := sp, params := buildTree d.params,
    kind := d.kind.getD .val, body := d.ret.getD .unit }

/-- Mirror of `Def`: ordered choice of `Fn` then `Val` over one shared
record, committing with a fresh key on success. -/
def defP (fuel : Nat) (s : Source) (u : Int) :
    Source × Int × Option (Int × DefData) :=
  let l := s.loc
  let d0 : DefRec := { name := none, params := [], kind := none, ret := none }
  let r1 := fnP fuel s u d0
  if ¬ r1.1.failed then
    (r1.1, r1.2.1 + 1, some (r1.2.1 + 1, mkDefData r1.1.text r1.2.2))
  else
    let r2 := valP fuel (source_Back r1.1 l) r1.2.1 r1.2.2
    if ¬ r2.1.failed then
      (r2.1, r2.2.1 + 1, some (r2.2.1 + 1, mkDefData r2.1.text r2.2.2))
    else ({ source_Back r2.1 l with failed := true }, r2.2.1, none)

/-- Mirror of `many(Def)` inside `ParseProgram`. -/
def manyDefsP (fuel : Nat) : Nat → Source → Int → Source × Int × List (Int × DefData)
  | 0, s, u => (s, u, [])
  | n + 1, s, u =>
    let l := s.loc
    let r := defP fuel s u
    if r.1.failed then (source_Back r.1 l, r.2.1, [])
    else
      let rest := manyDefsP fuel n (skipIfNotAtom r.1) r.2.1
      (rest.1, rest.2.1, r.2.2.toList ++ rest.2.2)

/-- Mirror of `ParseProgram` run from `main` on a file holding `t`:
start-of-input, definitions, end-of-input, starting from a fresh cursor
and UID counter 0. -/
def ParseProgram (t : List Nat) : Source × List (Int × DefData) :=
  let s := source_Init t
  let s0 := if s.loc.pos ≠ 0 then { s with failed := true } else s
  if s0.failed then (s0, [])
  else
    let s1 := skipIfNotAtom s0
    let r := manyDefsP (10 * t.length + 100) (t.length + 1) s1 0
    let s2 := skipIfNotAtom r.1
    let s3 := if s2.loc.pos ≠ t.length then { s2 with failed := true } else s2
    (s3, r.2.2)

/-- Outcome of the front-end portion of `main` (`src/oxn.c` lines
1246-1254): parse, report a located parse error on failure, and otherwise
continue (debug-print and an unrelated hard-coded JIT demonstration) with
the parsed program as is — no resolver runs on this path. -/
inductive FrontOut where
  | parseError (l : Loc)
  | parsed (p : Program)

/-- The program registry built from the committed definitions (each was
`tree_Insert`ed as it parsed). -/
def progOfDefs (ds : List (Int × DefData)) : Program :=
  buildTree ds

/-- Mirror of the front-end pipeline `main` invokes. -/
def main_front (t : List Nat) : FrontOut :=
  let r := ParseProgram t
  if r.1.failed then .parseError r.1.loc else .parsed (progOfDefs r.2)

mutual

/-- No `Expr_Unresolved` node remains in the expression. -/
def exprNoUnresolvedB : Expr → Bool
  | .app f args => exprNoUnresolvedB f && argsNoUnresolvedB args
  | .ite i t e => exprNoUnresolvedB i && exprNoUnresolvedB t && exprNoUnresolvedB e
  | .lam _ b => exprNoUnresolvedB b
  | .unresolved _ _ => false
  | .num _ => true
  | .unit => true
  | .fls => true
  | .tru => true
  | .resolved _ => true

/-- `exprNoUnresolvedB` over an argument list. -/
def argsNoUnresolvedB : List Expr → Bool
  | [] => true
  | a :: rest => exprNoUnresolvedB a && argsNoUnresolvedB rest

end

/-- No `Expr_Unresolved` node remains anywhere in the program. -/
def progNoUnresolvedB (p : Program) : Bool :=
  tree_Iter (fun b _ d => b && exprNoUnresolvedB d.body) true p

/-! ## Scope checkers (the spec's hypotheses, as decidable predicates) -/

/-- The value of the last `set` for key `k` in an operation sequence. -/
def assocLast (ops : List (Str × Int)) (k : Str) : Option Int :=
  ops.foldl (fun acc kv => if kv.1 = k then some kv.2 else acc) none

/-- The (name, key) pairs of a parameter registry in traversal order. -/
def parPairs (ps : Tree Par) : List (Str × Int) :=
  (inorder ps).map (fun p => (p.2.name, p.1))

/-- The binding a name receives from a parameter registry (the last
parameter with that name, matching the `set` overwrite order). -/
def parAssoc (ps : Tree Par) (k : Str) : Option Int :=
  assocLast (parPairs ps) k

/-- Names of a parameter registry, in traversal order. -/
def parNames (ps : Tree Par) : List Str :=
  (inorder ps).map (fun p => p.2.name)

/-- No byte string occurs twice in the list. -/
def nodupStr (l : List Str) : Bool :=
  decide l.Nodup

/-- No key occurs twice in the list. -/
def nodupInt (l : List Int) : Bool :=
  decide l.Nodup

mutual

/-- Every lambda inside the expression has pairwise distinct parameter
names ("no duplicate names within any one scope", lambda scopes). -/
def exprScopesDupFreeB : Expr → Bool
  | .app f args => exprScopesDupFreeB f && argsScopesDupFreeB args
  | .ite i t e => exprScopesDupFreeB i && exprScopesDupFreeB t && exprScopesDupFreeB e
  | .lam ps b => nodupStr (parNames ps) && exprScopesDupFreeB b
  | .num _ => true
  | .unit => true
  | .fls => true
  | .tru => true
  | .unresolved _ _ => true
  | .resolved _ => true

/-- `exprScopesDupFreeB` over an argument list. -/
def argsScopesDupFreeB : List Expr → Bool
  | [] => true
  | a :: rest => exprScopesDupFreeB a && argsScopesDupFreeB rest

end

/-- "No duplicate names within any one scope": top-level definition names
pairwise distinct, each definition's parameter names pairwise distinct,
and likewise inside every lambda. -/
def progDupFreeB (p : Program) : Bool :=
  nodupStr ((inorder p).map (fun d => d.2.name)) &&
  (inorder p).all
    (fun d => nodupStr (parNames d.2.params) && exprScopesDupFreeB d.2.body)

mutual

/-- The claim's reading of "no reference to an undeclared name": every
identifier reference names either a parameter of the innermost enclosing
scope (a lambda sees only its own parameters — the documented no-capture
rule) or some top-level definition of the program. -/
def exprRefsDeclB (globals : List Str) (locals : List Str) : Expr → Bool
  | .app f args => exprRefsDeclB globals locals f && argsRefsDeclB globals locals args
  | .ite i t e =>
    exprRefsDeclB globals locals i && exprRefsDeclB globals locals t &&
      exprRefsDeclB globals locals e
  | .lam ps b => exprRefsDeclB globals (parNames ps) b
  | .unresolved n _ => locals.contains n || globals.contains n
  | .num _ => true
  | .unit => true
  | .fls => true
  | .tru => true
  | .resolved _ => false

/-- `exprRefsDeclB` over an argument list. -/
def argsRefsDeclB (globals : List Str) (locals : List Str) : List Expr → Bool
  | [] => true
  | a :: rest => exprRefsDeclB globals locals a && argsRefsDeclB globals locals rest

end

/-- Program-level version of `exprRefsDeclB`: all definition names of the
whole program are taken as declared globals (this is what "no reference to
an undeclared name" says; the resolver actually sees a name only after its
definition has been walked). -/
def progRefsDeclB (p : Program) : Bool :=
  (inorder p).all
    (fun d =>
      exprRefsDeclB ((inorder p).map (fun d => d.2.name))
        (parNames d.2.params) d.2.body)

/-! ## The resolver's actual sequential visibility (amended claim C9) -/

mutual

/-- The locals environment left behind after the resolver has walked the
expression: entering a lambda replaces it with the lambda's own parameters
and it is never restored. -/
def LAfterE (L : List (Str × Int)) : Expr → List (Str × Int)
  | .app f args => LAfterArgs (LAfterE L f) args
  | .ite i t e => LAfterE (LAfterE (LAfterE L i) t) e
  | .lam ps b => LAfterE (parPairs ps) b
  | .num _ => L
  | .unit => L
  | .fls => L
  | .tru => L
  | .unresolved _ _ => L
  | .resolved _ => L

/-- `LAfterE` threaded through an argument list. -/
def LAfterArgs (L : List (Str × Int)) : List Expr → List (Str × Int)
  | [] => L
  | a :: rest => LAfterArgs (LAfterE L a) rest

end

mutual

/-- Every identifier reference in the expression is resolvable at its
point of use under the resolver's sequential visibility: the locals
environment is threaded through the walk (`LAfterE`), a lambda sees only
its own (duplicate-free) parameters, and a reference must hit the current
locals or the globals. -/
def envOKB (G : List (Str × Int)) : List (Str × Int) → Expr → Bool
  | L, .app f args => envOKB G L f && argsOKB G (LAfterE L f) args
  | L, .ite i t e =>
    envOKB G L i && envOKB G (LAfterE L i) t &&
      envOKB G (LAfterE (LAfterE L i) t) e
  | _, .lam ps b => nodupStr (parNames ps) && envOKB G (parPairs ps) b
  | L, .unresolved n _ => (assocLast L n).isSome || (assocLast G n).isSome
  | _, .num _ => true
  | _, .unit => true
  | _, .fls => true
  | _, .tru => true
  | _, .resolved _ => false

/-- `envOKB` threaded over an argument list. -/
def argsOKB (G : List (Str × Int)) : List (Str × Int) → List Expr → Bool
  | _, [] => true
  | L, a :: rest => envOKB G L a && argsOKB G (LAfterE L a) rest

end

/-- Sequential validity of a definition list: each definition's name is
new among the globals seen so far, its parameters are duplicate-free, and
its body is resolvable with the globals up to and including itself. -/
def defsSeqOKB : List (Str × Int) → List (Int × DefData) → Bool
  | _, [] => true
  | G, (k, d) :: rest =>
    (! (assocLast G d.name).isSome) &&
    nodupStr (parNames d.params) &&
    envOKB (G ++ [(d.name, k)]) (parPairs d.params) d.body &&
    defsSeqOKB (G ++ [(d.name, k)]) rest

/-- Sequential validity of a whole program (the amended hypothesis of the
round-trip claim). -/
def progSeqOKB (p : Program) : Bool :=
  defsSeqOKB [] (inorder p)

mutual

/-- All binding identifiers of parameters bound inside the expression
(lambda parameter registries). -/
def exprParamKeys : Expr → List Int
  | .app f args => exprParamKeys f ++ argsParamKeys args
  | .ite i t e => exprParamKeys i ++ exprParamKeys t ++ exprParamKeys e
  | .lam ps b => inorderKeys ps ++ exprParamKeys b
  | .num _ => []
  | .unit => []
  | .fls => []
  | .tru => []
  | .unresolved _ _ => []
  | .resolved _ => []

/-- `exprParamKeys` over an argument list. -/
def argsParamKeys : List Expr → List Int
  | [] => []
  | a :: rest => exprParamKeys a ++ argsParamKeys rest

end

/-- All binding identifiers of a definition list: each definition's key,
its parameters' keys, and the keys bound inside its body. -/
def defsAllKeys : List (Int × DefData) → List Int
  | [] => []
  | (k, d) :: rest =>
    k :: (inorderKeys d.params ++ exprParamKeys d.body) ++ defsAllKeys rest

/-- All binding identifiers of Definitions and Parameters of a program. -/
def progAllKeys (p : Program) : List Int :=
  defsAllKeys (inorder p)

/-- List form of `tree_IterMap` (used to reason about
`Resolver_Program`'s traversal over the in-order definition list). -/
def iterMapList {α σ : Type} (f : σ → Int → α → σ × α) :
    σ → List (Int × α) → σ × List (Int × α)
  | s, [] => (s, [])
  | s, (k, a) :: rest =>
    let pa := f s k a
    let pr := iterMapList f pa.1 rest
    (pr.1, (k, pa.2) :: pr.2)

/-! ## Concrete instances used by counterexamples and witnesses -/

/-- The bytes of the source file text `k = x\n`. -/
def txKx : List Nat := [107, 32, 61, 32, 120, 10]

/-- The bytes of `a() b()\nb() 1\n`: definition `a` calls `b` before `b`
is defined. -/
def txFwd : List Nat := [97, 40, 41, 32, 98, 40, 41, 10, 98, 40, 41, 32, 49, 10]

/-- The bytes of `g(a, b) a\nh(x) g((y) => y, x)\n`: inside `h`, the
parameter `x` is referenced after a lambda argument. -/
def txLam : List Nat :=
  [103, 40, 97, 44, 32, 98, 41, 32, 97, 10, 104, 40, 120, 41, 32, 103, 40, 40,
   121, 41, 32, 61, 62, 32, 121, 44, 32, 120, 41, 10]

/-- Span of the callee `f` in the claim C2 scenario. -/
def spF : Span :=
  { left := { pos := 0, ln := 1, col := 1 }, right := { pos := 1, ln := 1, col := 2 } }

/-- Span of the first argument `a` in the claim C2 scenario. -/
def spA : Span :=
  { left := { pos := 2, ln := 1, col := 3 }, right := { pos := 3, ln := 1, col := 4 } }

/-- Span of the second argument in the claim C2 scenario. -/
def spB : Span :=
  { left := { pos := 5, ln := 1, col := 6 }, right := { pos := 6, ln := 1, col := 7 } }

/-- A resolver mid-run whose `Globals` table binds `f` (bytes `[102]`) to
key 1, as after `Resolver_insertGlobal` has inserted a definition `f`. -/
def rHasF : Resolver :=
  { Resolver_Init with globals := (map_Set map_Default [102] 1).1 }

/-- `rHasF` with `Locals` additionally binding `x` (bytes `[120]`) to
key 7, as inside a definition with parameter `x`. -/
def rHasFx : Resolver :=
  { rHasF with locals := (map_Set map_Default [120] 7).1 }

/-- The body expression `f(a, b)` with `a` and `b` undeclared. -/
def eFab : Expr :=
  .app (.unresolved [102] spF) [.unresolved [97] spA, .unresolved [98] spB]

/-- The body expression `f(a, x)` with only `a` undeclared. -/
def eFax : Expr :=
  .app (.unresolved [102] spF) [.unresolved [97] spA, .unresolved [120] spB]

/-- A destination table binding `"a"` to 1 (claim C3 scenario). -/
def mapDstEx : MapC := (map_Set map_Default [97] 1).1

/-- A source table binding `"a"` to 2 (collides with `mapDstEx`). -/
def mapSrcEx : MapC := (map_Set map_Default [97] 2).1

/-- A source table binding `"b"` to 2 (no collision with the default). -/
def mapSrcB : MapC := (map_Set map_Default [98] 2).1

/-- The safety condition for the `m->Buckets[map_hash(key, m->Cap)]`
accesses `map_Set` and `map_Get` perform: the computed bucket index falls
inside the allocated bucket array. -/
def bucketAccessInBounds (m : MapC) (key : Str) : Prop :=
  map_hash key m.cap < m.buckets.length

/-- A parser that moves the cursor and fails (used as a concrete
alternation branch). -/
def pFailEx : ParserF :=
  fun s => { s with failed := true, loc := { pos := 99, ln := 9, col := 9 } }

/-- A parser that consumes one column and succeeds (used as a concrete
alternation branch). -/
def pOkEx : ParserF :=
  fun s => { s with loc := loc_NextColumn s.loc }

/-! ## Abstractions for the symbol-table proofs -/

/-- Value of the first entry with key `k` in an entry list. -/
def entriesFind (es : List Entry) (k : Str) : Option Int :=
  (es.find? (fun e => e.key = k)).map (fun e => e.val)

/-- No two entries of the list share a key. -/
def distinctKeys (es : List Entry) : Prop :=
  es.Pairwise (fun a b => a.key ≠ b.key)

/-- The well-formedness invariant every table reachable through
`map_Default`/`map_Set`/`map_Merge` maintains: the allocated bucket array
matches the capacity, the capacity is positive, every entry sits in the
bucket its hash selects, and no key occurs twice. -/
def mapWF (m : MapC) : Prop :=
  m.cap = m.buckets.length ∧ 0 < m.cap ∧
  (∀ i, i < m.buckets.length →
    ∀ e ∈ bucketGet m.buckets i, map_hash e.key m.cap = i) ∧
  distinctKeys (mapEntries m)

/-- A table built by a sequence of `set` calls on a freshly initialized
table. -/
def buildMap (ops : List (Str × Int)) : MapC :=
  ops.foldl (fun m kv => (map_Set m kv.1 kv.2).1) map_Default

/-- A one-parameter registry binding `y` (bytes `[121]`) to key 5, the
parameter list of the lambda `(y) => y` in the claim C8 scenario. -/
def psY : Tree Par :=
  .node .nil 5 1 { name := [121], sp := spA } .nil

/-- The global (name, key) bindings a definition list installs, in walk
order. -/
def defsBinds (l : List (Int × DefData)) : List (Str × Int) :=
  l.map (fun kd => (kd.2.name, kd.1))

/-- A single well-scoped definition `f(y) y` (name bytes `[102]`, key 3,
parameter registry `psY`). -/
def dEx : DefData :=
  { name := [102], sp := spF, params := psY, kind := .fn,
    body := .unresolved [121] spB }

/-- The one-definition program holding `dEx` (claim C9 witness). -/
def pEx : Program :=
  .node .nil 3 1 dEx .nil

/-! # Theorems -/

/-- Claim C4 (code bug).  The claim says the bucket-selection hash is the
base-31 polynomial over all of the key's bytes and that keys differing
only after their first byte may hash differently.  In the code the loop
`for (char c = *key; c != '\0'; c++)` increments the character rather than
the key pointer, so the hash reads only the first byte: for any two keys
with the same first byte the hash is identical for every capacity,
and on `"ab"` the code hash (872825 mod 1000003) differs from the spec's
polynomial hash (3105), e.g. already modulo capacity 8. -/
theorem map_hash_first_byte_bug :
    (∀ (b : Nat) (rest rest' : Str) (cap : Nat),
        map_hash (b :: rest) cap = map_hash (b :: rest') cap) ∧
    map_hash [97, 98] 1000003 = 872825 ∧
    specPolyHash [97, 98] 1000003 = 3105 ∧
    map_hash [97, 98] 8 ≠ specPolyHash [97, 98] 8 :=
  ⟨fun _ _ _ _ => rfl, rfl, rfl, by decide⟩

/-- Claim C10 (code bug).  The claim says that after `map_Default` the
allocated bucket array has exactly `Cap = 8` slots, so the bucket accesses
of `set`/`get` stay in bounds even for the first initialization.  But
`map_Default` allocates `make(struct entry *, m->Cap)` *before* assigning
`m->Cap = 8`: the allocation uses whatever the field held before.  For a
first initialization over zeroed memory (`oldCap = 0`) the array has 0
slots while `Cap` claims 8, and the very first `set`/`get` access is out
of bounds. -/
theorem map_Default_wrong_capacity_bug :
    (∀ oldCap, (map_DefaultRaw oldCap).buckets.length = oldCap) ∧
    (map_DefaultRaw 0).cap = 8 ∧
    (map_DefaultRaw 0).buckets.length = 0 ∧
    ¬ bucketAccessInBounds (map_DefaultRaw 0) [97] :=
  ⟨fun oldCap => List.length_replicate oldCap [], rfl, rfl,
   by unfold bucketAccessInBounds; decide⟩

/-- Claim C2 (code bug).  The claim says that once the resolver state is
not OK every further recursive call is a no-op (leaving state, captured
name text and span unchanged, rewriting nothing), so the first error in
walk order gets reported.  But `Resolver_resolveArg` — unlike every other
resolver callback — performs no state check, so after an argument fails
the remaining arguments of the application are still resolved: on
`f(a, b)` with `a` and `b` unbound the captured name is `b` (the *last*
failure), not the first failure `a`; and on `f(a, x)` with `x` bound the
node for `x` is rewritten to `Expr_Resolved` even though the state is
already `NotFound`. -/
theorem resolver_args_not_noop_bug :
    (Resolver_Expr rHasF eFab).1.state = .notFound ∧
    (Resolver_Expr rHasF eFab).1.nameText = some [98] ∧
    (Resolver_Expr rHasF eFab).1.nameSpan = some spB ∧
    (Resolver_Expr rHasF eFab).1.nameText ≠ some [97] ∧
    (Resolver_Expr rHasFx eFax).2 =
      .app (.resolved 1) [.unresolved [97] spA, .resolved 7] :=
  ⟨rfl, rfl, rfl, by decide, rfl⟩

/-- Claim C1, counterexample.  The claim says the pipeline invoked from
`main` performs name resolution after parsing and never terminates
successfully leaving `Expr_Unresolved` nodes.  The input `k = x\n` is
accepted by the grammar, yet the front end `main` runs returns its AST
with the reference `x` still unresolved: `main` never calls
`Resolver_Program`. -/
theorem main_front_unresolved_cex :
    ¬ (∀ (t : List Nat) (p : Program),
        main_front t = .parsed p → progNoUnresolvedB p = true) := by
  intro h
  have h1 := h txKx (progOfDefs (ParseProgram txKx).2) rfl
  exact absurd h1 (by decide)

/-- Claim C1, amended.  The front-end run invoked from `main` stops after
parsing: on parse failure it reports a located error, and otherwise it
yields the parser's AST unchanged — the resolver is never invoked, so an
accepted input such as `k = x\n` terminates the front end successfully
with an `Expr_Unresolved` node still in the AST. -/
theorem main_front_skips_resolution :
    main_front txKx = .parsed (progOfDefs (ParseProgram txKx).2) ∧
    progNoUnresolvedB (progOfDefs (ParseProgram txKx).2) = false ∧
    (∀ (t : List Nat) (p : Program),
        main_front t = .parsed p → p = progOfDefs (ParseProgram t).2) := by
  refine ⟨rfl, rfl, fun t p h => ?_⟩
  unfold main_front at h
  cases hf : (ParseProgram t).1.failed with
  | true => simp [hf] at h
  | false => simp [hf] at h; exact h.symm

/-- Claim C9, counterexample.  With "declared" read as the claim intends
(a reference names a parameter of its innermost scope or any top-level
definition of the program), the two-definition program `a() b()\nb() 1\n`
has no duplicate names and no undeclared reference, yet resolution ends in
`NotFound`: globals are inserted one definition at a time, so a body
cannot see later definitions.  A second accepted program
`g(a, b) a\nh(x) g((y) => y, x)\n` also satisfies both hypotheses and
also ends in `NotFound`: entering the lambda argument replaced `Locals`,
so the following reference to `h`'s own parameter `x` no longer
resolves. -/
theorem resolver_roundtrip_cex :
    (¬ (∀ (t : List Nat),
        progDupFreeB (progOfDefs (ParseProgram t).2) = true →
        progRefsDeclB (progOfDefs (ParseProgram t).2) = true →
        (Resolver_Program Resolver_Init
          (progOfDefs (ParseProgram t).2)).1.state = .ok)) ∧
    progDupFreeB (progOfDefs (ParseProgram txLam).2) = true ∧
    progRefsDeclB (progOfDefs (ParseProgram txLam).2) = true ∧
    (Resolver_Program Resolver_Init
      (progOfDefs (ParseProgram txLam).2)).1.state = .notFound := by
  refine ⟨fun h => absurd (h txFwd rfl rfl) (by decide), rfl, rfl, rfl⟩

/-! ## Registry tree lemmas (claim C5) -/

/-- `node_rightRotate` permutes the tree shape but not the in-order
traversal. -/
theorem inorder_rightRotate {α : Type} (t : Tree α) :
    inorder (node_rightRotate t) = inorder t := by
  cases t with
  | nil => rfl
  | node l k h a r =>
    cases l with
    | nil => rfl
    | node yl yk yh ya yr => simp [node_rightRotate, inorder]

/-- `node_leftRotate` permutes the tree shape but not the in-order
traversal. -/
theorem inorder_leftRotate {α : Type} (t : Tree α) :
    inorder (node_leftRotate t) = inorder t := by
  cases t with
  | nil => rfl
  | node l k h a r =>
    cases r with
    | nil => rfl
    | node yl yk yh ya yr => simp [node_leftRotate, inorder]

/-- The rebalancing tail of `tree_Insert` preserves the in-order
traversal, whichever of the four rotation cases fires. -/
theorem inorder_insStep {α : Type} (t : Tree α) (k : Int) :
    inorder (insStep t k) = inorder t := by
  cases t with
  | nil => rfl
  | node l rk rh ra r =>
    simp only [insStep]
    split_ifs <;>
      simp [inorder_rightRotate, inorder_leftRotate, inorder]

/-- Inserting a key strictly greater than every key in the tree appends it
to the in-order traversal. -/
theorem inorder_insert_max {α : Type} (t : Tree α) (k : Int) (a : α)
    (hmax : ∀ p ∈ inorder t, p.1 < k) :
    inorder (tree_Insert t k a) = inorder t ++ [(k, a)] := by
  induction t with
  | nil => rfl
  | node l rk rh ra r ihl ihr =>
    have hrk : rk < k := hmax (rk, ra) (by simp [inorder])
    have h1 : ¬ k < rk := not_lt.mpr hrk.le
    simp only [tree_Insert, if_neg h1, if_pos hrk, inorder_insStep]
    have := ihr (fun p hp => hmax p (by simp [inorder, hp]))
    simp [inorder, this]

/-- Folding `tree_Insert` over strictly increasing keys, all greater than
the keys already present, appends them in order. -/
theorem inorder_insertAll {α : Type} (ps : List (Int × α)) (t : Tree α)
    (hsep : ∀ p ∈ inorder t, ∀ q ∈ ps, p.1 < q.1)
    (hps : ps.Pairwise (fun p q => p.1 < q.1)) :
    inorder (ps.foldl (fun t ka => tree_Insert t ka.1 ka.2) t) =
      inorder t ++ ps := by
  induction ps generalizing t with
  | nil => simp
  | cons q qs ih =>
    have hq : inorder (tree_Insert t q.1 q.2) = inorder t ++ [(q.1, q.2)] :=
      inorder_insert_max t q.1 q.2 (fun p hp => hsep p hp q (by simp))
    have hsep' : ∀ p ∈ inorder (tree_Insert t q.1 q.2), ∀ r ∈ qs, p.1 < r.1 := by
      intro p hp r hr
      rw [hq] at hp
      rcases List.mem_append.mp hp with h | h
      · exact hsep p h r (by simp [hr])
      · have : p = (q.1, q.2) := by simpa using h
        subst this
        exact (List.pairwise_cons.mp hps).1 r hr
    have := ih (tree_Insert t q.1 q.2) hsep' (List.pairwise_cons.mp hps).2
    simp only [List.foldl_cons]
    rw [this, hq]
    simp

/-- Claim C5 (confirmed).  Entries inserted with keys assigned by the
strictly increasing UID counter are visited by the in-order traversal in
exactly key-assignment order, regardless of the rotations performed: for
any strictly increasing key sequence, folding `tree_Insert` over it yields
a tree whose in-order pair sequence is that sequence, and the in-order key
sequence is strictly increasing. -/
theorem registry_inorder_parse_order {α : Type} (ps : List (Int × α))
    (hps : ps.Pairwise (fun p q => p.1 < q.1)) :
    inorder (buildTree ps) = ps ∧
    (inorderKeys (buildTree ps)).Pairwise (· < ·) := by
  have h : inorder (buildTree ps) = ps := by
    have := inorder_insertAll ps (Tree.nil : Tree α) (by simp [inorder]) hps
    simpa [buildTree, inorder] using this
  refine ⟨h, ?_⟩
  rw [inorderKeys, h]
  exact hps.map _ (fun {p q} hpq => hpq)

/-- Witness for claim C5 at the concrete key sequence 1..5 (whose
insertion triggers left rotations). -/
theorem registry_inorder_parse_order_witness :
    ([(1, ()), (2, ()), (3, ()), (4, ()), (5, ())] :
        List (Int × Unit)).Pairwise (fun p q => p.1 < q.1) ∧
    inorder (buildTree [(1, ()), (2, ()), (3, ()), (4, ()), (5, ())]) =
      [(1, ()), (2, ()), (3, ()), (4, ()), (5, ())] :=
  ⟨by decide,
   (registry_inorder_parse_order
     [(1, ()), (2, ()), (3, ()), (4, ()), (5, ())] (by decide)).1⟩

/-! ## Alternation lemmas (claim C7) -/

/-- Every branch of `parseAny ps s` starts from the saved position with
the failure flag clear (branch 0 is `s` itself, which is unfailed by
hypothesis wherever the grammar invokes an alternation). -/
theorem branchInputs_spec (ps : List ParserF) (s : Source)
    (hs : s.failed = false) (i : Nat) :
    (branchInputs ps s i).loc = s.loc ∧ (branchInputs ps s i).failed = false := by
  induction ps generalizing s i with
  | nil => cases i <;> simp [branchInputs, hs]
  | cons p ps ih =>
    cases i with
    | zero => simp [branchInputs, hs]
    | succ j =>
      have := ih (source_Back (p s) s.loc) rfl j
      simpa [branchInputs, source_Back] using this

/-- Claim C7 (confirmed).  `parseAny` is ordered choice: every branch is
tried in declared order on a cursor restored to the single saved position
with the failure flag cleared (so a failing branch never changes the
position the next branch sees); the first succeeding branch's result is
returned; and if every branch fails the result is the saved position with
the failed flag set. -/
theorem parseAny_ordered_choice (ps : List ParserF) (s : Source)
    (hs : s.failed = false) :
    (∀ i, (branchInputs ps s i).loc = s.loc ∧
          (branchInputs ps s i).failed = false) ∧
    ((∃ i, ∃ h : i < ps.length,
        (∀ j, ∀ hj : j < ps.length, j < i →
          (ps.get ⟨j, hj⟩ (branchInputs ps s j)).failed = true) ∧
        (ps.get ⟨i, h⟩ (branchInputs ps s i)).failed = false ∧
        parseAny ps s = ps.get ⟨i, h⟩ (branchInputs ps s i)) ∨
      ((∀ j, ∀ hj : j < ps.length,
          (ps.get ⟨j, hj⟩ (branchInputs ps s j)).failed = true) ∧
        parseAny ps s = { branchInputs ps s ps.length with failed := true } ∧
        (parseAny ps s).failed = true ∧ (parseAny ps s).loc = s.loc)) := by
  refine ⟨fun i => branchInputs_spec ps s hs i, ?_⟩
  induction ps generalizing s with
  | nil =>
    right
    refine ⟨fun j hj => absurd hj (by simp), rfl, rfl, rfl⟩
  | cons p ps ih =>
    by_cases hp : (p s).failed = true
    · have hback : (source_Back (p s) s.loc).failed = false := rfl
      have hloc : (source_Back (p s) s.loc).loc = s.loc := rfl
      have hrec := ih (source_Back (p s) s.loc) hback
      have heq : parseAny (p :: ps) s = parseAny ps (source_Back (p s) s.loc) := by
        simp only [parseAny, parseAnyGo, hp, if_pos]
        rw [hloc]
      rcases hrec with ⟨i, h, hbefore, hsucc, hres⟩ | ⟨hall, hres, hf, hl⟩
      · left
        refine ⟨i + 1, by simpa using Nat.succ_lt_succ h, ?_, ?_, ?_⟩
        · intro j hj hji
          cases j with
          | zero => simpa [branchInputs] using hp
          | succ j' =>
            have hj' : j' < ps.length := by simpa using Nat.lt_of_succ_lt_succ hj
            have := hbefore j' hj' (Nat.lt_of_succ_lt_succ hji)
            simpa [branchInputs, List.get] using this
        · simpa [branchInputs, List.get] using hsucc
        · rw [heq, hres]
          simp [branchInputs, List.get]
      · right
        refine ⟨?_, ?_, ?_, ?_⟩
        · intro j hj
          cases j with
          | zero => simpa [branchInputs] using hp
          | succ j' =>
            have hj' : j' < ps.length := by simpa using Nat.lt_of_succ_lt_succ hj
            have := hall j' hj'
            simpa [branchInputs, List.get] using this
        · rw [heq, hres]
          simp [branchInputs]
        · rw [heq]; exact hf
        · rw [heq, hl, hloc]
    · left
      have hp' : (p s).failed = false := by
        cases hpf : (p s).failed
        · rfl
        · exact absurd hpf hp
      refine ⟨0, by simp, fun j hj hji => absurd hji (by omega), ?_, ?_⟩
      · simpa [branchInputs, List.get] using hp'
      · simp only [parseAny, parseAnyGo, hp']
        simp [branchInputs, List.get]

/-- Witness for claim C7 at a concrete two-branch alternation over a
fresh cursor. -/
theorem parseAny_ordered_choice_witness :
    (source_Init []).failed = false ∧
    ((∀ i, (branchInputs [pFailEx, pOkEx] (source_Init []) i).loc =
            (source_Init []).loc ∧
          (branchInputs [pFailEx, pOkEx] (source_Init []) i).failed = false) ∧
      ((∃ i, ∃ h : i < [pFailEx, pOkEx].length,
          (∀ j, ∀ hj : j < [pFailEx, pOkEx].length, j < i →
            ([pFailEx, pOkEx].get ⟨j, hj⟩
              (branchInputs [pFailEx, pOkEx] (source_Init []) j)).failed = true) ∧
          ([pFailEx, pOkEx].get ⟨i, h⟩
            (branchInputs [pFailEx, pOkEx] (source_Init []) i)).failed = false ∧
          parseAny [pFailEx, pOkEx] (source_Init []) =
            [pFailEx, pOkEx].get ⟨i, h⟩
              (branchInputs [pFailEx, pOkEx] (source_Init []) i)) ∨
        ((∀ j, ∀ hj : j < [pFailEx, pOkEx].length,
            ([pFailEx, pOkEx].get ⟨j, hj⟩
              (branchInputs [pFailEx, pOkEx] (source_Init []) j)).failed = true) ∧
          parseAny [pFailEx, pOkEx] (source_Init []) =
            { branchInputs [pFailEx, pOkEx] (source_Init [])
                [pFailEx, pOkEx].length with failed := true } ∧
          (parseAny [pFailEx, pOkEx] (source_Init [])).failed = true ∧
          (parseAny [pFailEx, pOkEx] (source_Init [])).loc =
            (source_Init []).loc))) :=
  ⟨rfl, parseAny_ordered_choice [pFailEx, pOkEx] (source_Init []) rfl⟩

/-! ## Symbol-table lemmas (claims C3, C6, C8, C9) -/

/-- The hash always selects an index below the capacity. -/
theorem map_hash_lt (k : Str) {cap : Nat} (h : 0 < cap) : map_hash k cap < cap := by
  unfold map_hash
  exact Nat.mod_lt _ h

/-- `chainSet` preserves the key sequence of the chain. -/
theorem chainSet_map_key (k : Str) (v : Int) (es : List Entry) :
    (chainSet k v es).1.map (fun e => e.key) = es.map (fun e => e.key) := by
  induction es with
  | nil => rfl
  | cons e es ih =>
    by_cases h : e.key = k
    · simp [chainSet, h]
    · simp [chainSet, h, ih]

/-- The flag `chainSet` returns reports whether the chain held the key. -/
theorem chainSet_snd (k : Str) (v : Int) (es : List Entry) :
    (chainSet k v es).2 = (es.find? (fun e => e.key = k)).isSome := by
  induction es with
  | nil => rfl
  | cons e es ih =>
    by_cases h : e.key = k
    · simp [chainSet, h, List.find?_cons]
    · simp [chainSet, h, List.find?_cons, ih]

/-- After a successful in-place update, looking the key up yields the new
value. -/
theorem entriesFind_chainSet_self (k : Str) (v : Int) (es : List Entry)
    (h : (es.find? (fun e => e.key = k)).isSome) :
    entriesFind (chainSet k v es).1 k = some v := by
  induction es with
  | nil => simp [List.find?] at h
  | cons e es ih =>
    by_cases he : e.key = k
    · simp [chainSet, he, entriesFind, List.find?_cons]
    · have h' : (es.find? (fun e => e.key = k)).isSome := by
        simpa [List.find?_cons, he] using h
      simpa [chainSet, he, entriesFind, List.find?_cons] using ih h'

/-- An in-place update for key `k` leaves lookups of other keys alone. -/
theorem entriesFind_chainSet_other (k : Str) (v : Int) (es : List Entry)
    (k' : Str) (hne : k' ≠ k) :
    entriesFind (chainSet k v es).1 k' = entriesFind es k' := by
  induction es with
  | nil => rfl
  | cons e es ih =>
    by_cases he : e.key = k
    · have hkk : ¬ k = k' := fun hh => hne hh.symm
      simp [chainSet, he, entriesFind, List.find?_cons, hkk]
    · by_cases he' : e.key = k'
      · simp [chainSet, he, entriesFind, List.find?_cons, he', hne]
      · simpa [chainSet, he, entriesFind, List.find?_cons, he'] using ih

/-- Under key-distinctness, two entries with the same key coincide. -/
theorem eq_of_mem_of_key {es : List Entry} (h : distinctKeys es) {a b : Entry}
    (ha : a ∈ es) (hb : b ∈ es) (hk : a.key = b.key) : a = b := by
  induction es with
  | nil => cases ha
  | cons e es ih =>
    unfold distinctKeys at h
    rcases List.pairwise_cons.mp h with ⟨hhead, htail⟩
    rcases List.mem_cons.mp ha with ha' | ha' <;>
      rcases List.mem_cons.mp hb with hb' | hb'
    · rw [ha', hb']
    · subst ha'; exact absurd hk (hhead b hb')
    · subst hb'; exact absurd hk.symm (hhead a ha')
    · exact ih htail ha' hb'

/-- Lookup misses exactly when no entry has the key. -/
theorem entriesFind_eq_none_iff {es : List Entry} {k : Str} :
    entriesFind es k = none ↔ ∀ e ∈ es, e.key ≠ k := by
  unfold entriesFind
  simp [List.find?_eq_none]

/-- Under key-distinctness, lookup hits exactly the unique entry with the
key. -/
theorem entriesFind_some_iff {es : List Entry} (h : distinctKeys es)
    {k : Str} {v : Int} :
    entriesFind es k = some v ↔ ∃ e ∈ es, e.key = k ∧ e.val = v := by
  constructor
  · intro hf
    unfold entriesFind at hf
    cases hfind : es.find? (fun e => e.key = k) with
    | none => simp [hfind] at hf
    | some e =>
      refine ⟨e, List.mem_of_find?_eq_some hfind, by simpa using List.find?_some hfind, ?_⟩
      simpa [hfind] using hf
  · rintro ⟨e, hmem, hk, hv⟩
    induction es with
    | nil => cases hmem
    | cons e0 es ih =>
      unfold distinctKeys at h
      rcases List.pairwise_cons.mp h with ⟨hhead, htail⟩
      by_cases h0 : e0.key = k
      · have : e = e0 := by
          rcases List.mem_cons.mp hmem with h' | h'
          · exact h'
          · exact absurd (hk.trans h0.symm).symm (hhead e h')
        subst this
        unfold entriesFind
        rw [List.find?_cons]
        simp [h0, hv]
      · rcases List.mem_cons.mp hmem with h' | h'
        · exact absurd (h' ▸ hk) h0
        · have hrec := ih htail h'
          unfold entriesFind at hrec ⊢
          rw [List.find?_cons]
          simpa [h0] using hrec

/-- Lookup in a key-distinct entry list is stable under permutation. -/
theorem entriesFind_perm {es es' : List Entry} (hperm : es.Perm es')
    (hdist : distinctKeys es) (k : Str) :
    entriesFind es k = entriesFind es' k := by
  have hdist' : distinctKeys es' :=
    (hperm.pairwise_iff (fun h => fun h2 => h h2.symm)).mp hdist
  cases hf : entriesFind es k with
  | none =>
    rw [entriesFind_eq_none_iff] at hf
    symm
    rw [entriesFind_eq_none_iff]
    exact fun e he => hf e (hperm.mem_iff.mpr he)
  | some v =>
    obtain ⟨e, hmem, hk, hv⟩ := (entriesFind_some_iff hdist).mp hf
    symm
    exact (entriesFind_some_iff hdist').mpr ⟨e, hperm.mem_iff.mp hmem, hk, hv⟩

/-- Each bucket of a key-distinct table is itself key-distinct. -/
theorem distinct_of_mem (bs : List (List Entry))
    (h : distinctKeys bs.flatten) : ∀ l ∈ bs, distinctKeys l := by
  induction bs with
  | nil => intro l hl; cases hl
  | cons b bs ih =>
    unfold distinctKeys at h
    have hb : List.Pairwise (fun a b => a.key ≠ b.key) (b ++ bs.flatten) := by
      simpa using h
    rcases List.pairwise_append.mp hb with ⟨h1, h2, _⟩
    intro l hl
    rcases List.mem_cons.mp hl with hl' | hl'
    · exact hl' ▸ h1
    · exact ih h2 l hl'

/-- Reading a bucket of the default (all-empty) array gives the empty
chain. -/
theorem bucketGet_replicate (n i : Nat) :
    bucketGet (List.replicate n []) i = [] := by
  unfold bucketGet
  rw [List.getD_eq_getElem?_getD, List.getElem?_replicate]
  by_cases h : i < n <;> simp [h]

/-- Reading back the written bucket. -/
theorem bucketGet_set_self {bs : List (List Entry)} {i : Nat}
    (h : i < bs.length) (c : List Entry) :
    bucketGet (bucketSet bs i c) i = c := by
  unfold bucketGet bucketSet
  rw [List.getD_eq_getElem?_getD, List.getElem?_set_self (by simpa using h)]
  rfl

/-- Writing one bucket leaves the others unchanged. -/
theorem bucketGet_set_ne {bs : List (List Entry)} {i j : Nat} (h : i ≠ j)
    (c : List Entry) : bucketGet (bucketSet bs i c) j = bucketGet bs j := by
  unfold bucketGet bucketSet
  rw [List.getD_eq_getElem?_getD, List.getD_eq_getElem?_getD,
      List.getElem?_set_ne h]

/-- Membership in a bucket gives membership in the table's entry list. -/
theorem mem_flatten_of_mem_bucketGet {bs : List (List Entry)} {i : Nat}
    {e : Entry} (h : e ∈ bucketGet bs i) : e ∈ bs.flatten := by
  unfold bucketGet at h
  by_cases hi : i < bs.length
  · rw [List.getD_eq_getElem?_getD, List.getElem?_eq_getElem hi] at h
    exact List.mem_flatten.mpr ⟨bs[i], List.getElem_mem hi, by simpa using h⟩
  · rw [List.getD_eq_getElem?_getD, List.getElem?_eq_none (by omega)] at h
    cases h

/-- Consing onto one bucket permutes the entry list by consing the new
entry on the front. -/
theorem flatten_set_cons_perm (bs : List (List Entry)) (i : Nat)
    (hi : i < bs.length) (x : Entry) :
    (bucketSet bs i (x :: bucketGet bs i)).flatten.Perm (x :: bs.flatten) := by
  induction bs generalizing i with
  | nil => simp at hi
  | cons b bs ih =>
    cases i with
    | zero =>
      have h0 : bucketGet (b :: bs) 0 = b := List.getD_cons_zero
      rw [h0]
      simp only [bucketSet, List.set_cons_zero, List.flatten_cons, List.cons_append]
      exact List.Perm.refl _
    | succ j =>
      have hj : j < bs.length := by simpa using hi
      have step := ih j hj
      have h1 : (bucketSet (b :: bs) (j + 1) (x :: bucketGet (b :: bs) (j + 1))).flatten
          = b ++ (bucketSet bs j (x :: bucketGet bs j)).flatten := by
        simp [bucketSet, bucketGet, List.getD_cons_succ]
      rw [h1]
      simp only [List.flatten_cons]
      exact (List.Perm.append_left b step).trans List.perm_middle

/-- Replacing one bucket by a chain with the same key sequence preserves
the table's key sequence. -/
theorem flatten_set_map_key (bs : List (List Entry)) (i : Nat)
    (hi : i < bs.length) (c : List Entry)
    (hc : c.map (fun e => e.key) = (bucketGet bs i).map (fun e => e.key)) :
    (bucketSet bs i c).flatten.map (fun e => e.key) =
      bs.flatten.map (fun e => e.key) := by
  induction bs generalizing i with
  | nil => simp at hi
  | cons b bs ih =>
    cases i with
    | zero =>
      have : bucketGet (b :: bs) 0 = b := List.getD_cons_zero
      rw [this] at hc
      simp [bucketSet, hc]
    | succ j =>
      have hj : j < bs.length := by simpa using hi
      have : bucketGet (b :: bs) (j + 1) = bucketGet bs j := List.getD_cons_succ
      rw [this] at hc
      simp only [bucketSet, List.set_cons_succ, List.flatten_cons, List.map_append]
      have hrec := ih j hj hc
      simp only [bucketSet] at hrec
      rw [hrec]

/-- Key-distinctness is no-duplication of the key sequence. -/
theorem distinctKeys_iff_nodup (es : List Entry) :
    distinctKeys es ↔ (es.map (fun e => e.key)).Nodup := by
  unfold distinctKeys
  simp [List.Nodup, List.pairwise_map]

/-- `Option.map` preserves `isSome` (the shape `entriesFind` uses). -/
theorem isSome_map_val (o : Option Entry) :
    (o.map (fun e => e.val)).isSome = o.isSome := by
  cases o <;> rfl

/-- An entry of a table whose buckets respect the hash invariant lies in
the bucket its hash selects. -/
theorem mem_bucket_of_mem_flatten {bs : List (List Entry)} {cap : Nat}
    (hinv : ∀ i, i < bs.length → ∀ e ∈ bucketGet bs i, map_hash e.key cap = i)
    {e : Entry} (he : e ∈ bs.flatten) :
    e ∈ bucketGet bs (map_hash e.key cap) := by
  obtain ⟨l, hl, hel⟩ := List.mem_flatten.mp he
  obtain ⟨j, hj, hlj⟩ := List.mem_iff_getElem.mp hl
  have hbucket : e ∈ bucketGet bs j := by
    unfold bucketGet
    rw [List.getD_eq_getElem?_getD, List.getElem?_eq_getElem hj]
    simpa [hlj] using hel
  rw [hinv j hj e hbucket]
  exact hbucket

/-- With the well-formedness invariant, `map_Get` computes lookup in the
table's entry list. -/
theorem map_Get_eq_entriesFind (m : MapC) (h : mapWF m) (k : Str) :
    map_Get m k = entriesFind (mapEntries m) k := by
  obtain ⟨hcap, hpos, hinv, hdist⟩ := h
  have hdef : map_Get m k = entriesFind (bucketGet m.buckets (map_hash k m.cap)) k := rfl
  cases hf : entriesFind (mapEntries m) k with
  | none =>
    rw [hdef]
    rw [entriesFind_eq_none_iff] at hf ⊢
    intro e he
    exact hf e (mem_flatten_of_mem_bucketGet he)
  | some v =>
    obtain ⟨e, hmem, hk, hv⟩ := (entriesFind_some_iff hdist).mp hf
    unfold mapEntries at hmem
    have hbucket := mem_bucket_of_mem_flatten hinv hmem
    have hjk : map_hash k m.cap = map_hash e.key m.cap := by rw [hk]
    rw [hdef, hjk]
    have hdistb : distinctKeys (bucketGet m.buckets (map_hash e.key m.cap)) := by
      by_cases hlt : map_hash e.key m.cap < m.buckets.length
      · refine distinct_of_mem m.buckets hdist _ ?_
        have : bucketGet m.buckets (map_hash e.key m.cap) =
            m.buckets[map_hash e.key m.cap] := by
          unfold bucketGet
          rw [List.getD_eq_getElem?_getD, List.getElem?_eq_getElem hlt]
          rfl
        rw [this]
        exact List.getElem_mem hlt
      · unfold bucketGet
        rw [List.getD_eq_getElem?_getD, List.getElem?_eq_none (by omega)]
        exact List.Pairwise.nil
    exact (entriesFind_some_iff hdistb).mpr ⟨e, hbucket, hk, hv⟩

/-- `flatten` of an all-empty bucket array is empty. -/
theorem flatten_replicate_nil (n : Nat) :
    (List.replicate n ([] : List Entry)).flatten = [] := by
  induction n with
  | zero => rfl
  | succ n ih => simp [List.replicate_succ, ih]

/-- The relink loop of `map_rehash` keeps the bucket-array length and the
hash invariant. -/
theorem redistribute_inv (cap2 : Nat) (es : List Entry) :
    ∀ nb : List (List Entry), cap2 = nb.length → 0 < cap2 →
    (∀ i, i < nb.length → ∀ e ∈ bucketGet nb i, map_hash e.key cap2 = i) →
    (es.foldl (rehashPush cap2) nb).length = nb.length ∧
    (∀ i, i < nb.length →
      ∀ e ∈ bucketGet (es.foldl (rehashPush cap2) nb) i,
        map_hash e.key cap2 = i) := by
  induction es with
  | nil => intro nb _ _ h3; exact ⟨rfl, h3⟩
  | cons e es ih =>
    intro nb h1 h2 h3
    have hi : map_hash e.key cap2 < nb.length := h1 ▸ map_hash_lt _ h2
    have hlen : (rehashPush cap2 nb e).length = nb.length := by
      simp [rehashPush, bucketSet, List.length_set]
    have hinv : ∀ i, i < (rehashPush cap2 nb e).length →
        ∀ x ∈ bucketGet (rehashPush cap2 nb e) i, map_hash x.key cap2 = i := by
      intro i hlt x hx
      rw [hlen] at hlt
      by_cases hii : map_hash e.key cap2 = i
      · subst hii
        rw [rehashPush, bucketGet_set_self hi] at hx
        rcases List.mem_cons.mp hx with hx' | hx'
        · rw [hx']
        · exact h3 _ hlt x hx'
      · rw [rehashPush, bucketGet_set_ne hii] at hx
        exact h3 i hlt x hx
    have hrec := ih (rehashPush cap2 nb e) (by rw [hlen]; exact h1) h2 hinv
    simp only [List.foldl_cons]
    refine ⟨hrec.1.trans hlen, ?_⟩
    intro i hlt x hx
    exact hrec.2 i (by rw [hlen]; exact hlt) x hx

/-- The relink loop of `map_rehash` permutes the entries: each is moved
exactly once. -/
theorem redistribute_perm (cap2 : Nat) (es : List Entry) :
    ∀ nb : List (List Entry), cap2 = nb.length → 0 < cap2 →
    (es.foldl (rehashPush cap2) nb).flatten.Perm (es ++ nb.flatten) := by
  induction es with
  | nil => intro nb _ _; simp only [List.foldl_nil, List.nil_append]; exact List.Perm.refl _
  | cons e es ih =>
    intro nb h1 h2
    have hi : map_hash e.key cap2 < nb.length := h1 ▸ map_hash_lt _ h2
    have hlen : (rehashPush cap2 nb e).length = nb.length := by
      simp [rehashPush, bucketSet, List.length_set]
    have hstep : (rehashPush cap2 nb e).flatten.Perm (e :: nb.flatten) :=
      flatten_set_cons_perm nb _ hi e
    have hrec := ih (rehashPush cap2 nb e) (by rw [hlen]; exact h1) h2
    simp only [List.foldl_cons, List.cons_append]
    exact hrec.trans ((List.Perm.append_left es hstep).trans List.perm_middle)

/-- Specification of `map_rehash`: the invariant is preserved, the
capacity doubles, no entry is lost or duplicated (the entry list is a
permutation of the old one), and every lookup is unchanged. -/
theorem map_rehash_spec (m : MapC) (h : mapWF m) :
    mapWF (map_rehash m) ∧
    (mapEntries (map_rehash m)).Perm (mapEntries m) ∧
    (map_rehash m).cap = m.cap * 2 ∧
    (∀ k, map_Get (map_rehash m) k = map_Get m k) := by
  obtain ⟨hcap, hpos, hinv, hdist⟩ := h
  have hpos2 : 0 < m.cap * 2 := by omega
  have hbuckets : (map_rehash m).buckets =
      (mapEntries m).foldl (rehashPush (m.cap * 2)) (List.replicate (m.cap * 2) []) := by
    simp only [map_rehash, mapEntries]
    rw [List.foldl_flatten]
  have hlenrep : m.cap * 2 = (List.replicate (m.cap * 2) ([] : List Entry)).length := by
    simp
  have hinv0 : ∀ i, i < (List.replicate (m.cap * 2) ([] : List Entry)).length →
      ∀ e ∈ bucketGet (List.replicate (m.cap * 2) []) i,
        map_hash e.key (m.cap * 2) = i := by
    intro i _ e he
    rw [bucketGet_replicate] at he
    cases he
  have hperm : (mapEntries (map_rehash m)).Perm (mapEntries m) := by
    unfold mapEntries
    rw [hbuckets]
    have := redistribute_perm (m.cap * 2) (mapEntries m)
      (List.replicate (m.cap * 2) []) hlenrep hpos2
    simpa [flatten_replicate_nil] using this
  have hri := redistribute_inv (m.cap * 2) (mapEntries m)
    (List.replicate (m.cap * 2) []) hlenrep hpos2 hinv0
  have hlen : (map_rehash m).buckets.length = m.cap * 2 := by
    rw [hbuckets, hri.1]
    simp
  have hcap2 : (map_rehash m).cap = m.cap * 2 := rfl
  have hdist2 : distinctKeys (mapEntries (map_rehash m)) :=
    (hperm.pairwise_iff (fun hab => fun hba => hab hba.symm)).mpr hdist
  have hwf : mapWF (map_rehash m) := by
    refine ⟨hcap2.trans hlen.symm, hcap2 ▸ hpos2, ?_, hdist2⟩
    intro i hlt e he
    rw [hbuckets] at he
    rw [hcap2]
    exact hri.2 i (by rw [hlen] at hlt; simpa using hlt) e he
  refine ⟨hwf, hperm, hcap2, ?_⟩
  intro k
  rw [map_Get_eq_entriesFind _ hwf, map_Get_eq_entriesFind _ ⟨hcap, hpos, hinv, hdist⟩,
      entriesFind_perm hperm hdist2]

/-- Specification of the overwrite-or-prepend part of `map_Set` on a
well-formed table: the invariant is preserved, the returned flag reports
whether the key was present, and lookups behave as a pointwise update. -/
theorem map_SetNoGrow_spec (m : MapC) (k : Str) (v : Int) (h : mapWF m) :
    mapWF (map_SetNoGrow m k v).1 ∧
    (map_SetNoGrow m k v).2 = (map_Get m k).isSome ∧
    map_Get (map_SetNoGrow m k v).1 k = some v ∧
    (∀ k', k' ≠ k → map_Get (map_SetNoGrow m k v).1 k' = map_Get m k') := by
  obtain ⟨hcap, hpos, hinv, hdist⟩ := h
  have hilt : map_hash k m.cap < m.buckets.length := hcap ▸ map_hash_lt k hpos
  have hgetdef : map_Get m k =
      entriesFind (bucketGet m.buckets (map_hash k m.cap)) k := rfl
  have hsomedef : (map_Get m k).isSome =
      ((bucketGet m.buckets (map_hash k m.cap)).find?
        (fun e => e.key = k)).isSome := by
    rw [hgetdef]
    exact isSome_map_val _
  by_cases hfound :
      ((bucketGet m.buckets (map_hash k m.cap)).find? (fun e => e.key = k)).isSome
  · -- the key is present: its entry's value is overwritten in place
    have hr2 : (chainSet k v (bucketGet m.buckets (map_hash k m.cap))).2 = true := by
      rw [chainSet_snd]
      exact hfound
    have hstep : map_SetNoGrow m k v = ({ m with buckets := bucketSet m.buckets (map_hash k m.cap) (chainSet k v (bucketGet m.buckets (map_hash k m.cap))).1 }, true) := by
      simp [map_SetNoGrow, hr2]
    rw [hstep]
    have hkeys := chainSet_map_key k v (bucketGet m.buckets (map_hash k m.cap))
    have hwf : mapWF { m with buckets := bucketSet m.buckets (map_hash k m.cap) (chainSet k v (bucketGet m.buckets (map_hash k m.cap))).1 } := by
      refine ⟨by simpa [bucketSet] using hcap, hpos, ?_, ?_⟩
      · intro i hlt e he
        by_cases hii : map_hash k m.cap = i
        · subst hii
          rw [bucketGet_set_self hilt] at he
          have : e.key ∈ (chainSet k v
              (bucketGet m.buckets (map_hash k m.cap))).1.map (fun e => e.key) :=
            List.mem_map.mpr ⟨e, he, rfl⟩
          rw [hkeys] at this
          obtain ⟨e', he', hke⟩ := List.mem_map.mp this
          rw [← hke]
          exact hinv _ hilt e' he'
        · rw [bucketGet_set_ne hii] at he
          exact hinv i (by simpa [bucketSet] using hlt) e he
      · rw [distinctKeys_iff_nodup]
        have := flatten_set_map_key m.buckets (map_hash k m.cap) hilt _ hkeys
        unfold mapEntries
        simp only []
        rw [this]
        exact (distinctKeys_iff_nodup _).mp hdist
    refine ⟨hwf, by simp [hsomedef, hfound], ?_, ?_⟩
    · show entriesFind (bucketGet (bucketSet m.buckets (map_hash k m.cap) _)
        (map_hash k m.cap)) k = some v
      rw [bucketGet_set_self hilt]
      exact entriesFind_chainSet_self k v _ hfound
    · intro k' hk'
      show entriesFind (bucketGet (bucketSet m.buckets (map_hash k m.cap) _)
        (map_hash k' m.cap)) k' = map_Get m k'
      by_cases hii : map_hash k m.cap = map_hash k' m.cap
      · rw [← hii, bucketGet_set_self hilt,
            entriesFind_chainSet_other k v _ k' hk']
        rw [show map_Get m k' =
          entriesFind (bucketGet m.buckets (map_hash k' m.cap)) k' from rfl, ← hii]
      · rw [bucketGet_set_ne hii]
        rfl
  · -- the key is absent: a fresh entry is prepended to the bucket
    have hr2 : (chainSet k v (bucketGet m.buckets (map_hash k m.cap))).2 = false := by
      rw [chainSet_snd]
      simpa using hfound
    have hnone : entriesFind (bucketGet m.buckets (map_hash k m.cap)) k = none := by
      unfold entriesFind
      cases hff : (bucketGet m.buckets (map_hash k m.cap)).find? (fun e => e.key = k)
      · rfl
      · rw [hff] at hfound
        simp at hfound
    have hstep : map_SetNoGrow m k v = ({ m with buckets := bucketSet m.buckets (map_hash k m.cap) ({ key := k, val := v } :: bucketGet m.buckets (map_hash k m.cap)), size := m.size + 1 }, false) := by
      simp [map_SetNoGrow, hr2]
    rw [hstep]
    have hperm := flatten_set_cons_perm m.buckets (map_hash k m.cap) hilt
      { key := k, val := v }
    have hnomem : ∀ b ∈ m.buckets.flatten, b.key ≠ k := by
      intro b hb hbk
      have hbb := mem_bucket_of_mem_flatten hinv hb
      rw [hbk] at hbb
      rw [entriesFind_eq_none_iff] at hnone
      exact hnone b hbb hbk
    have hdist2 : distinctKeys
        (({ key := k, val := v } : Entry) :: m.buckets.flatten) := by
      unfold distinctKeys
      rw [List.pairwise_cons]
      exact ⟨fun b hb => fun hkb => hnomem b hb hkb.symm, hdist⟩
    have hwf : mapWF { m with buckets := bucketSet m.buckets (map_hash k m.cap) ({ key := k, val := v } :: bucketGet m.buckets (map_hash k m.cap)), size := m.size + 1 } := by
      refine ⟨by simpa [bucketSet] using hcap, hpos, ?_, ?_⟩
      · intro i hlt e he
        by_cases hii : map_hash k m.cap = i
        · subst hii
          rw [bucketGet_set_self hilt] at he
          rcases List.mem_cons.mp he with he' | he'
          · rw [he']
          · exact hinv _ hilt e he'
        · rw [bucketGet_set_ne hii] at he
          exact hinv i (by simpa [bucketSet] using hlt) e he
      · unfold mapEntries distinctKeys
        simp only []
        refine (hperm.pairwise_iff (fun hab => fun hba => hab hba.symm)).mpr ?_
        exact hdist2
    refine ⟨hwf, by simp [hsomedef, hfound], ?_, ?_⟩
    · show entriesFind (bucketGet (bucketSet m.buckets (map_hash k m.cap) _)
        (map_hash k m.cap)) k = some v
      rw [bucketGet_set_self hilt]
      simp [entriesFind, List.find?_cons]
    · intro k' hk'
      show entriesFind (bucketGet (bucketSet m.buckets (map_hash k m.cap) _)
        (map_hash k' m.cap)) k' = map_Get m k'
      by_cases hii : map_hash k m.cap = map_hash k' m.cap
      · rw [← hii, bucketGet_set_self hilt]
        have : ¬ ({ key := k, val := v } : Entry).key = k' := fun hh => hk' hh.symm
        simp only [entriesFind, List.find?_cons, this]
        rw [show map_Get m k' =
          entriesFind (bucketGet m.buckets (map_hash k' m.cap)) k' from rfl, ← hii]
        simp [entriesFind, decide_eq_false this]
      · rw [bucketGet_set_ne hii]
        rfl

/-- Specification of `map_Set` on a well-formed table (composing the
possible rehash with the update). -/
theorem map_Set_spec (m : MapC) (k : Str) (v : Int) (h : mapWF m) :
    mapWF (map_Set m k v).1 ∧
    (map_Set m k v).2 = (map_Get m k).isSome ∧
    map_Get (map_Set m k v).1 k = some v ∧
    (∀ k', k' ≠ k → map_Get (map_Set m k v).1 k' = map_Get m k') := by
  unfold map_Set
  by_cases hg : m.cap ≤ m.size
  · have hr := map_rehash_spec m h
    have hs := map_SetNoGrow_spec (map_rehash m) k v hr.1
    simp only [if_pos hg]
    refine ⟨hs.1, ?_, hs.2.2.1, ?_⟩
    · rw [hs.2.1, hr.2.2.2 k]
    · intro k' hk'
      rw [hs.2.2.2 k' hk', hr.2.2.2 k']
  · simp only [if_neg hg]
    exact map_SetNoGrow_spec m k v h

/-- The default table is well-formed. -/
theorem mapWF_default : mapWF map_Default := by
  refine ⟨rfl, by decide, ?_, ?_⟩
  · intro i _ e he
    have : bucketGet map_Default.buckets i = [] := bucketGet_replicate 8 i
    rw [this] at he
    cases he
  · unfold distinctKeys mapEntries
    rw [show map_Default.buckets = List.replicate 8 [] from rfl,
        flatten_replicate_nil]
    exact List.Pairwise.nil

/-- The default table is empty. -/
theorem map_Get_default (k : Str) : map_Get map_Default k = none := by
  unfold map_Get
  rw [show map_Default.buckets = List.replicate 8 [] from rfl,
      bucketGet_replicate]
  rfl

/-- Folding `set` over an operation sequence preserves the invariant, and
each lookup is the pointwise fold of the updates over the initial
lookup. -/
theorem foldSet_spec (ops : List (Str × Int)) :
    ∀ m : MapC, mapWF m →
    mapWF (ops.foldl (fun m kv => (map_Set m kv.1 kv.2).1) m) ∧
    (∀ k, map_Get (ops.foldl (fun m kv => (map_Set m kv.1 kv.2).1) m) k =
      ops.foldl (fun acc kv => if kv.1 = k then some kv.2 else acc)
        (map_Get m k)) := by
  induction ops with
  | nil => intro m hm; exact ⟨hm, fun _ => rfl⟩
  | cons kv ops ih =>
    intro m hm
    have hs := map_Set_spec m kv.1 kv.2 hm
    have hrec := ih (map_Set m kv.1 kv.2).1 hs.1
    simp only [List.foldl_cons]
    refine ⟨hrec.1, ?_⟩
    intro k
    rw [hrec.2 k]
    congr 1
    by_cases hk : kv.1 = k
    · subst hk
      rw [hs.2.2.1]
      simp
    · rw [hs.2.2.2 k (fun h => hk h.symm)]
      simp [hk]

/-- In a key-distinct entry list each key is counted at most once, and
exactly once when lookup succeeds. -/
theorem countP_entries_distinct (es : List Entry) (k : Str)
    (h : distinctKeys es) :
    es.countP (fun e => e.key = k) =
      if (entriesFind es k).isSome then 1 else 0 := by
  induction es with
  | nil => rfl
  | cons e es ih =>
    unfold distinctKeys at h
    rcases List.pairwise_cons.mp h with ⟨hhead, htail⟩
    by_cases hk : e.key = k
    · have hz : es.countP (fun e => e.key = k) = 0 := by
        rw [List.countP_eq_zero]
        intro b hb
        simp only [decide_eq_true_eq]
        intro hbk
        exact hhead b hb (hk.trans hbk.symm)
      simp [List.countP_cons, hk, hz, entriesFind, List.find?_cons]
    · have := ih htail
      simp [List.countP_cons, hk, this, entriesFind, List.find?_cons]

/-- On a well-formed table, `countKey` is 0 or 1, matching lookup. -/
theorem mapWF_countKey (m : MapC) (h : mapWF m) (k : Str) :
    countKey m k = if (map_Get m k).isSome then 1 else 0 := by
  unfold countKey
  rw [map_Get_eq_entriesFind m h]
  exact countP_entries_distinct (mapEntries m) k h.2.2.2

/-- Claim C6 (confirmed).  For every sequence of `set` calls on a freshly
initialized table, a subsequent `get` returns the value of the last `set`
for the key (and misses for keys never set); rehashing neither loses nor
duplicates entries — every key set at least once is stored exactly once,
and keys never set are not stored at all. -/
theorem map_set_get_last_write (ops : List (Str × Int)) (k : Str) :
    map_Get (buildMap ops) k = assocLast ops k ∧
    countKey (buildMap ops) k = if (assocLast ops k).isSome then 1 else 0 := by
  have h := foldSet_spec ops map_Default mapWF_default
  have hget : map_Get (buildMap ops) k = assocLast ops k := by
    unfold buildMap assocLast
    rw [h.2 k, map_Get_default]
  refine ⟨hget, ?_⟩
  rw [← hget]
  unfold buildMap
  exact mapWF_countKey _ h.1 k

/-- `map_Merge` processes exactly the source's entry list, in bucket
order. -/
theorem map_Merge_eq_foldl (lhs rhs : MapC) :
    map_Merge lhs rhs = (mapEntries rhs).foldl mergeStep (lhs, [], []) := by
  unfold map_Merge mapEntries
  rw [List.foldl_flatten]

/-- Membership of a key's text in a well-formed table's entry list is
lookup success. -/
theorem isSome_iff_mem_entries (m : MapC) (h : mapWF m) (k : Str) :
    (map_Get m k).isSome = true ↔ ∃ e ∈ mapEntries m, e.key = k := by
  rw [map_Get_eq_entriesFind m h]
  constructor
  · intro hs
    cases hf : entriesFind (mapEntries m) k with
    | none => rw [hf] at hs; cases hs
    | some v =>
      obtain ⟨e, hmem, hk, _⟩ := (entriesFind_some_iff h.2.2.2).mp hf
      exact ⟨e, hmem, hk⟩
  · rintro ⟨e, hmem, hk⟩
    have : entriesFind (mapEntries m) k = some e.val :=
      (entriesFind_some_iff h.2.2.2).mpr ⟨e, hmem, hk, rfl⟩
    rw [this]
    rfl

/-- The merge loop over a key-distinct entry list: lookups become
source-priority union, and the two freed-key lists record exactly the
colliding and the moved entries. -/
theorem mergeFold_spec (es : List Entry) :
    ∀ (m : MapC) (l0 r0 : List Str), mapWF m → distinctKeys es →
    mapWF (es.foldl mergeStep (m, l0, r0)).1 ∧
    (∀ k, map_Get (es.foldl mergeStep (m, l0, r0)).1 k =
      match entriesFind es k with
      | some v => some v
      | none => map_Get m k) ∧
    (es.foldl mergeStep (m, l0, r0)).2.1 =
      l0 ++ (es.filter (fun e => (map_Get m e.key).isSome)).map (fun e => e.key) ∧
    (es.foldl mergeStep (m, l0, r0)).2.2 =
      r0 ++ (es.filter (fun e => ! (map_Get m e.key).isSome)).map (fun e => e.key) := by
  induction es with
  | nil =>
    intro m l0 r0 hm _
    exact ⟨hm, fun k => rfl, by simp, by simp⟩
  | cons e es ih =>
    intro m l0 r0 hm hdist
    unfold distinctKeys at hdist
    rcases List.pairwise_cons.mp hdist with ⟨hhead, htail⟩
    have hs := map_Set_spec m e.key e.val hm
    have hfc : ∀ x ∈ es, (map_Get (map_Set m e.key e.val).1 x.key).isSome =
        (map_Get m x.key).isSome := by
      intro x hx
      rw [hs.2.2.2 x.key (fun hh => hhead x hx hh.symm)]
    have hnone : entriesFind es e.key = none := by
      rw [entriesFind_eq_none_iff]
      intro b hb hbk
      exact hhead b hb hbk.symm
    have hconsself : entriesFind (e :: es) e.key = some e.val := by
      simp [entriesFind, List.find?_cons]
    have hget : ∀ k,
        (match entriesFind es k with
         | some v => some v
         | none => map_Get (map_Set m e.key e.val).1 k) =
        match entriesFind (e :: es) k with
        | some v => some v
        | none => map_Get m k := by
      intro k
      by_cases hk : e.key = k
      · subst hk
        rw [hnone, hconsself, hs.2.2.1]
      · have hcons : entriesFind (e :: es) k = entriesFind es k := by
          simp [entriesFind, List.find?_cons, hk]
        rw [hcons]
        cases hf : entriesFind es k with
        | some v => rfl
        | none => rw [hs.2.2.2 k (fun hh => hk hh.symm)]
    by_cases hflag : (map_Set m e.key e.val).2 = true
    · have hstep : mergeStep (m, l0, r0) e =
          ((map_Set m e.key e.val).1, l0 ++ [e.key], r0) := by
        simp [mergeStep, hflag]
      have hrec := ih (map_Set m e.key e.val).1 (l0 ++ [e.key]) r0 hs.1 htail
      simp only [List.foldl_cons, hstep]
      have hpe : (map_Get m e.key).isSome = true := by rw [← hs.2.1]; exact hflag
      have hne : map_Get m e.key ≠ none := Option.isSome_iff_ne_none.mp hpe
      refine ⟨hrec.1, ?_, ?_, ?_⟩
      · intro k
        rw [hrec.2.1 k]
        exact hget k
      · rw [hrec.2.2.1, List.filter_congr hfc]
        simp [List.filter_cons, hpe, hne]
      · rw [hrec.2.2.2, List.filter_congr (fun x hx => by rw [hfc x hx])]
        simp [List.filter_cons, hpe, hne]
    · have hflag' : (map_Set m e.key e.val).2 = false := by
        cases hb : (map_Set m e.key e.val).2
        · rfl
        · exact absurd hb hflag
      have hstep : mergeStep (m, l0, r0) e =
          ((map_Set m e.key e.val).1, l0, r0 ++ [e.key]) := by
        simp [mergeStep, hflag']
      have hrec := ih (map_Set m e.key e.val).1 l0 (r0 ++ [e.key]) hs.1 htail
      simp only [List.foldl_cons, hstep]
      have hpe : (map_Get m e.key).isSome = false := by rw [← hs.2.1]; exact hflag'
      have heq : map_Get m e.key = none := by
        cases hgo : map_Get m e.key
        · rfl
        · rw [hgo] at hpe; cases hpe
      refine ⟨hrec.1, ?_, ?_, ?_⟩
      · intro k
        rw [hrec.2.1 k]
        exact hget k
      · rw [hrec.2.2.1, List.filter_congr hfc]
        simp [List.filter_cons, hpe, heq]
      · rw [hrec.2.2.2, List.filter_congr (fun x hx => by rw [hfc x hx])]
        simp [List.filter_cons, hpe, heq]

/-- Claim C3, amended and proved.  `map_Merge dst src` moves every entry
of `src` into `dst`, but on a key collision it is the *source's* value
that wins (`map_Set` overwrites `dst`'s entry), with `dst` keeping its own
key text and `src`'s colliding copy freed during the loop; the key text of
every *moved* (non-colliding) entry is then also freed by the closing
`map_Free(src)` even though the merged table still references it; `src` is
fully drained and freed. -/
theorem map_Merge_src_value_wins (dst src : MapC)
    (h1 : mapWF dst) (h2 : mapWF src) :
    (∀ k, map_Get (map_Merge dst src).1 k =
      match map_Get src k with
      | some v => some v
      | none => map_Get dst k) ∧
    (∀ k, k ∈ (map_Merge dst src).2.1 ↔
      (map_Get src k).isSome = true ∧ (map_Get dst k).isSome = true) ∧
    (∀ k, k ∈ (map_Merge dst src).2.2 ↔
      (map_Get src k).isSome = true ∧ (map_Get dst k).isSome = false) ∧
    (∀ k, k ∈ (map_Merge dst src).2.2 →
      (map_Get (map_Merge dst src).1 k).isSome = true) := by
  have hfold := mergeFold_spec (mapEntries src) dst [] [] h1 h2.2.2.2
  rw [map_Merge_eq_foldl]
  have hget : ∀ k, map_Get ((mapEntries src).foldl mergeStep (dst, [], [])).1 k =
      match map_Get src k with
      | some v => some v
      | none => map_Get dst k := by
    intro k
    rw [hfold.2.1 k, map_Get_eq_entriesFind src h2]
  have hmem1 : ∀ k, k ∈ ((mapEntries src).foldl mergeStep (dst, [], [])).2.1 ↔
      (map_Get src k).isSome = true ∧ (map_Get dst k).isSome = true := by
    intro k
    rw [hfold.2.2.1]
    simp only [List.nil_append, List.mem_map, List.mem_filter]
    constructor
    · rintro ⟨e, ⟨hmem, hp⟩, hk⟩
      subst hk
      exact ⟨(isSome_iff_mem_entries src h2 e.key).mpr ⟨e, hmem, rfl⟩, by simpa using hp⟩
    · rintro ⟨hsrc, hdst⟩
      obtain ⟨e, hmem, hk⟩ := (isSome_iff_mem_entries src h2 k).mp hsrc
      exact ⟨e, ⟨hmem, by simpa [hk] using hdst⟩, hk⟩
  have hmem2 : ∀ k, k ∈ ((mapEntries src).foldl mergeStep (dst, [], [])).2.2 ↔
      (map_Get src k).isSome = true ∧ (map_Get dst k).isSome = false := by
    intro k
    rw [hfold.2.2.2]
    simp only [List.nil_append, List.mem_map, List.mem_filter]
    constructor
    · rintro ⟨e, ⟨hmem, hp⟩, hk⟩
      subst hk
      refine ⟨(isSome_iff_mem_entries src h2 e.key).mpr ⟨e, hmem, rfl⟩, ?_⟩
      simpa using hp
    · rintro ⟨hsrc, hdst⟩
      obtain ⟨e, hmem, hk⟩ := (isSome_iff_mem_entries src h2 k).mp hsrc
      refine ⟨e, ⟨hmem, ?_⟩, hk⟩
      simp [hk, hdst]
  refine ⟨hget, hmem1, hmem2, ?_⟩
  intro k hkmem
  have hsrc := ((hmem2 k).mp hkmem).1
  rw [hget k]
  cases hf : map_Get src k with
  | none => rw [hf] at hsrc; cases hsrc
  | some v => rfl

/-- Claim C3, counterexample.  The claim says `dst` wins a collision and
only the losing key-text copy is released.  Merging `a ↦ 2` (src) into
`a ↦ 1` (dst) leaves the table binding `a ↦ 2` — the source's value, not
`dst`'s original 1; and merging the non-colliding `b ↦ 2` into an empty
table frees the very key text the merged table still references (the list
of copies freed by the closing `map_Free(src)` is nonempty). -/
theorem map_Merge_dst_wins_cex :
    map_Get (map_Merge mapDstEx mapSrcEx).1 [97] = some 2 ∧
    some 2 ≠ some (1 : Int) ∧
    (map_Merge map_Default mapSrcB).2.2 = [[98]] ∧
    map_Get (map_Merge map_Default mapSrcB).1 [98] = some 2 :=
  ⟨rfl, by decide, rfl, rfl⟩

/-- Witness for claim C3 at the concrete colliding tables. -/
theorem map_Merge_src_value_wins_witness :
    mapWF mapDstEx ∧ mapWF mapSrcEx ∧
    (∀ k, map_Get (map_Merge mapDstEx mapSrcEx).1 k =
      match map_Get mapSrcEx k with
      | some v => some v
      | none => map_Get mapDstEx k) :=
  ⟨(map_Set_spec map_Default [97] 1 mapWF_default).1,
   (map_Set_spec map_Default [97] 2 mapWF_default).1,
   (map_Merge_src_value_wins mapDstEx mapSrcEx
     (map_Set_spec map_Default [97] 1 mapWF_default).1
     (map_Set_spec map_Default [97] 2 mapWF_default).1).1⟩

/-! ## Environment bookkeeping lemmas (claims C8, C9) -/

/-- Folding the update step from an arbitrary accumulator: the sequence's
own last binding wins, else the accumulator survives. -/
theorem assocLast_fold_init (k : Str) (ys : List (Str × Int)) :
    ∀ init : Option Int,
    ys.foldl (fun acc kv => if kv.1 = k then some kv.2 else acc) init =
      match assocLast ys k with
      | some v => some v
      | none => init := by
  induction ys with
  | nil => intro init; rfl
  | cons y ys ih =>
    intro init
    have hl : assocLast (y :: ys) k =
        ys.foldl (fun acc kv => if kv.1 = k then some kv.2 else acc)
          (if y.1 = k then some y.2 else none) := rfl
    rw [hl, ih, List.foldl_cons, ih]
    by_cases hy : y.1 = k
    · cases assocLast ys k <;> simp [hy]
    · cases assocLast ys k <;> simp [hy]

/-- `assocLast` over an append: the later list wins. -/
theorem assocLast_append (xs ys : List (Str × Int)) (k : Str) :
    assocLast (xs ++ ys) k =
      match assocLast ys k with
      | some v => some v
      | none => assocLast xs k := by
  unfold assocLast
  rw [List.foldl_append]
  exact assocLast_fold_init k ys _

/-- `assocLast` after appending a single binding. -/
theorem assocLast_snoc (xs : List (Str × Int)) (n : Str) (v : Int) (k : Str) :
    assocLast (xs ++ [(n, v)]) k =
      if n = k then some v else assocLast xs k := by
  rw [assocLast_append]
  by_cases hn : n = k
  · simp [assocLast, hn]
  · simp [assocLast, hn]

/-- A name is bound by the sequence exactly when it occurs among the
keys. -/
theorem assocLast_isSome_iff (l : List (Str × Int)) (k : Str) :
    (assocLast l k).isSome = true ↔ k ∈ l.map Prod.fst := by
  induction l with
  | nil => simp [assocLast]
  | cons x xs ih =>
    have hl : assocLast (x :: xs) k =
        match assocLast xs k with
        | some v => some v
        | none => if x.1 = k then some x.2 else none := by
      have := assocLast_fold_init k xs (if x.1 = k then some x.2 else none)
      exact this
    rw [hl]
    cases hxs : assocLast xs k with
    | some v =>
      simp only [Option.isSome_some, true_iff]
      have : k ∈ xs.map Prod.fst := ih.mp (by rw [hxs]; rfl)
      simp [this]
    | none =>
      rw [hxs] at ih
      by_cases hx : x.1 = k
      · simp [hx]
      · simp only [hx, if_false]
        simp only [List.map_cons, List.mem_cons]
        constructor
        · intro h; cases h
        · rintro (h | h)
          · exact absurd h.symm hx
          · exact absurd (ih.mpr h) (by simp)

/-- With duplicate-free keys the unique binding is returned. -/
theorem assocLast_of_mem_nodup {l : List (Str × Int)} {k : Str} {v : Int}
    (hmem : (k, v) ∈ l) (hnd : (l.map Prod.fst).Nodup) :
    assocLast l k = some v := by
  induction l with
  | nil => cases hmem
  | cons x xs ih =>
    have hl : assocLast (x :: xs) k =
        match assocLast xs k with
        | some v => some v
        | none => if x.1 = k then some x.2 else none :=
      assocLast_fold_init k xs _
    rw [List.map_cons, List.nodup_cons] at hnd
    rcases List.mem_cons.mp hmem with hx | hx
    · have hnone : assocLast xs k = none := by
        cases hass : assocLast xs k with
        | none => rfl
        | some w =>
          have : k ∈ xs.map Prod.fst := (assocLast_isSome_iff xs k).mp (by rw [hass]; rfl)
          rw [← hx] at hnd
          exact absurd this hnd.1
      rw [hl, hnone, ← hx]
      simp
    · rw [hl, ih hx hnd.2]

/-- `tree_Iter` is the left fold over the in-order pair list. -/
theorem tree_Iter_eq_foldl {α σ : Type} (f : σ → Int → α → σ) (t : Tree α) :
    ∀ s : σ, tree_Iter f s t = (inorder t).foldl (fun s p => f s p.1 p.2) s := by
  induction t with
  | nil => intro s; rfl
  | node l k h a r ihl ihr =>
    intro s
    simp only [tree_Iter, inorder, List.foldl_append, List.foldl_cons]
    rw [ihl, ihr]

/-- `iterMapList` over an append splits into two runs. -/
theorem iterMapList_append {α σ : Type} (f : σ → Int → α → σ × α)
    (xs ys : List (Int × α)) : ∀ s : σ,
    iterMapList f s (xs ++ ys) =
      ((iterMapList f (iterMapList f s xs).1 ys).1,
       (iterMapList f s xs).2 ++ (iterMapList f (iterMapList f s xs).1 ys).2) := by
  induction xs with
  | nil => intro s; simp [iterMapList]
  | cons x xs ih =>
    intro s
    cases x with
    | mk k a =>
      simp only [List.cons_append, iterMapList, List.append_eq]
      rw [ih ((f s k a).1)]

/-- `tree_IterMap` is `iterMapList` over the in-order pair list: same
final state, and the rewritten tree's in-order list is the rewritten
list. -/
theorem tree_IterMap_eq {α σ : Type} (f : σ → Int → α → σ × α) (t : Tree α) :
    ∀ s : σ,
    (tree_IterMap f s t).1 = (iterMapList f s (inorder t)).1 ∧
    inorder (tree_IterMap f s t).2 = (iterMapList f s (inorder t)).2 := by
  induction t with
  | nil => intro s; exact ⟨rfl, rfl⟩
  | node l k h a r ihl ihr =>
    intro s
    simp only [tree_IterMap, inorder, iterMapList_append, iterMapList]
    rw [(ihl s).1, (ihl s).2]
    have h2 := ihr (f (iterMapList f s (inorder l)).1 k a).1
    rw [h2.1, h2.2]
    exact ⟨rfl, rfl⟩

/-- `Resolver_validateLocal` never touches the `Locals` table. -/
theorem validateLocal_locals (r : Resolver) (L : MapC) (k : Int) (p : Par) :
    Resolver_validateLocal { r with locals := L } k p =
      { (Resolver_validateLocal r k p) with locals := L } := by
  unfold Resolver_validateLocal
  by_cases h : r.state ≠ Resolution.ok
  · simp [h]
  · simp only [h, if_false, if_neg]
    split <;> rfl

/-- The duplicate-validation pass over a parameter list whose names extend
the already-seen keys without repetition: the state stays OK, the scratch
`Params` table accumulates exactly the (name, key) pairs, and nothing else
of the resolver changes (in particular the pass is oblivious to
`Locals`). -/
theorem validate_fold (l : List (Int × Par)) :
    ∀ (r : Resolver) (P : List (Str × Int)),
    r.state = .ok → mapWF r.params →
    (∀ n, map_Get r.params n = assocLast P n) →
    (P.map Prod.fst ++ l.map (fun p => p.2.name)).Nodup →
    (l.foldl (fun r p => Resolver_validateLocal r p.1 p.2) r).state = .ok ∧
    mapWF (l.foldl (fun r p => Resolver_validateLocal r p.1 p.2) r).params ∧
    (∀ n, map_Get (l.foldl (fun r p => Resolver_validateLocal r p.1 p.2) r).params n =
      assocLast (P ++ l.map (fun p => (p.2.name, p.1))) n) ∧
    (l.foldl (fun r p => Resolver_validateLocal r p.1 p.2) r).locals = r.locals ∧
    (l.foldl (fun r p => Resolver_validateLocal r p.1 p.2) r).globals = r.globals ∧
    (l.foldl (fun r p => Resolver_validateLocal r p.1 p.2) r).nameText = r.nameText ∧
    (l.foldl (fun r p => Resolver_validateLocal r p.1 p.2) r).nameSpan = r.nameSpan ∧
    (∀ L, l.foldl (fun r p => Resolver_validateLocal r p.1 p.2) { r with locals := L } =
      { (l.foldl (fun r p => Resolver_validateLocal r p.1 p.2) r) with locals := L }) := by
  induction l with
  | nil =>
    intro r P hok hwf hmod _
    refine ⟨hok, hwf, ?_, rfl, rfl, rfl, rfl, fun L => rfl⟩
    intro n
    simpa using hmod n
  | cons p l ih =>
    intro r P hok hwf hmod hnd
    have hs := map_Set_spec r.params p.2.name p.1 hwf
    have hnmem : p.2.name ∉ P.map Prod.fst := by
      intro hmem
      rcases List.nodup_append.mp hnd with ⟨_, _, hdisj⟩
      exact hdisj hmem (by simp)
    have hnone : (assocLast P p.2.name).isSome = false := by
      cases hasso : (assocLast P p.2.name).isSome
      · rfl
      · exact absurd ((assocLast_isSome_iff P p.2.name).mp hasso) hnmem
    have hflag : (map_Set r.params p.2.name p.1).2 = false := by
      rw [hs.2.1, hmod p.2.name]
      exact hnone
    have hval : Resolver_validateLocal r p.1 p.2 =
        { r with params := (map_Set r.params p.2.name p.1).1 } := by
      unfold Resolver_validateLocal
      rw [if_neg (by rw [hok]; exact fun h => h rfl)]
      simp [hflag]
    have hmod' : ∀ n, map_Get (map_Set r.params p.2.name p.1).1 n =
        assocLast (P ++ [(p.2.name, p.1)]) n := by
      intro n
      rw [assocLast_snoc]
      by_cases hn : p.2.name = n
      · subst hn
        simp [hs.2.2.1]
      · rw [if_neg hn, hs.2.2.2 n (fun hh => hn hh.symm), hmod n]
    have hnd' : ((P ++ [(p.2.name, p.1)]).map Prod.fst ++
        l.map (fun p => p.2.name)).Nodup := by
      rw [List.map_append]
      rw [List.append_assoc]
      simpa using hnd
    have hrec := ih { r with params := (map_Set r.params p.2.name p.1).1 }
      (P ++ [(p.2.name, p.1)]) hok hs.1 hmod' hnd'
    simp only [List.foldl_cons, hval]
    refine ⟨hrec.1, hrec.2.1, ?_, hrec.2.2.2.1, hrec.2.2.2.2.1,
      hrec.2.2.2.2.2.1, hrec.2.2.2.2.2.2.1, ?_⟩
    · intro n
      rw [hrec.2.2.1 n, List.append_assoc]
      simp
    · intro L
      have h1 : Resolver_validateLocal { r with locals := L } p.1 p.2 =
          { (Resolver_validateLocal r p.1 p.2) with locals := L } :=
        validateLocal_locals r L p.1 p.2
      rw [h1, hval]
      exact hrec.2.2.2.2.2.2.2 L

/-- The re-insertion pass (`Resolver_insertLocal` over the parameter
list): with `Locals` already holding every parameter's binding, it leaves
all lookups — and everything else — unchanged. -/
theorem insertLocal_fold (l : List (Int × Par)) :
    ∀ (r : Resolver) (M : List (Str × Int)),
    r.state = .ok → mapWF r.locals →
    (∀ n, map_Get r.locals n = assocLast M n) →
    (∀ p ∈ l, assocLast M p.2.name = some p.1) →
    (l.foldl (fun r p => Resolver_insertLocal r p.1 p.2) r).state = .ok ∧
    mapWF (l.foldl (fun r p => Resolver_insertLocal r p.1 p.2) r).locals ∧
    (∀ n, map_Get (l.foldl (fun r p => Resolver_insertLocal r p.1 p.2) r).locals n =
      assocLast M n) ∧
    (l.foldl (fun r p => Resolver_insertLocal r p.1 p.2) r).globals = r.globals ∧
    (l.foldl (fun r p => Resolver_insertLocal r p.1 p.2) r).params = r.params ∧
    (l.foldl (fun r p => Resolver_insertLocal r p.1 p.2) r).nameText = r.nameText ∧
    (l.foldl (fun r p => Resolver_insertLocal r p.1 p.2) r).nameSpan = r.nameSpan := by
  induction l with
  | nil =>
    intro r M hok hwf hmod _
    exact ⟨hok, hwf, hmod, rfl, rfl, rfl, rfl⟩
  | cons p l ih =>
    intro r M hok hwf hmod hbind
    have hs := map_Set_spec r.locals p.2.name p.1 hwf
    have hval : Resolver_insertLocal r p.1 p.2 =
        { r with locals := (map_Set r.locals p.2.name p.1).1 } := by
      unfold Resolver_insertLocal
      rw [if_neg (by rw [hok]; exact fun h => h rfl)]
    have hmod' : ∀ n, map_Get (map_Set r.locals p.2.name p.1).1 n =
        assocLast M n := by
      intro n
      by_cases hn : p.2.name = n
      · subst hn
        rw [hs.2.2.1, hbind p (by simp)]
      · rw [hs.2.2.2 n (fun hh => hn hh.symm), hmod n]
    have hrec := ih { r with locals := (map_Set r.locals p.2.name p.1).1 } M
      hok hs.1 hmod' (fun q hq => hbind q (by simp [hq]))
    simp only [List.foldl_cons, hval]
    exact hrec

/-- Specification of `Resolver_insertLocals` on a duplicate-free parameter
list: the state stays OK, `Locals` is replaced by a fresh well-formed
table binding exactly the parameters, the globals and captured error data
are untouched, and the outcome is independent of the `Locals` table that
was in place before (the enclosing scope's bindings are discarded). -/
theorem insertLocals_spec (r : Resolver) (ps : Tree Par)
    (hok : r.state = .ok) (hnodup : nodupStr (parNames ps) = true) :
    (Resolver_insertLocals r ps).state = .ok ∧
    mapWF (Resolver_insertLocals r ps).locals ∧
    (∀ n, map_Get (Resolver_insertLocals r ps).locals n = parAssoc ps n) ∧
    (Resolver_insertLocals r ps).globals = r.globals ∧
    (Resolver_insertLocals r ps).nameText = r.nameText ∧
    (Resolver_insertLocals r ps).nameSpan = r.nameSpan ∧
    (∀ L, Resolver_insertLocals { r with locals := L } ps =
      Resolver_insertLocals r ps) := by
  have hndnames : (([] : List (Str × Int)).map Prod.fst ++
      (inorder ps).map (fun p => p.2.name)).Nodup := by
    simpa [parNames] using of_decide_eq_true hnodup
  have hiter : ∀ (r0 : Resolver),
      tree_Iter (fun r k p => Resolver_validateLocal r k p) r0 ps =
      (inorder ps).foldl (fun r p => Resolver_validateLocal r p.1 p.2) r0 :=
    fun r0 => tree_Iter_eq_foldl _ ps r0
  have hiter2 : ∀ (r0 : Resolver),
      tree_Iter (fun r k p => Resolver_insertLocal r k p) r0 ps =
      (inorder ps).foldl (fun r p => Resolver_insertLocal r p.1 p.2) r0 :=
    fun r0 => tree_Iter_eq_foldl _ ps r0
  have hv := validate_fold (inorder ps) { r with params := map_Default } []
    hok mapWF_default (fun n => by rw [map_Get_default]; rfl) hndnames
  -- name the state after validation
  have hkeysnd : ((parPairs ps).map Prod.fst).Nodup := by
    have hmapeq : (parPairs ps).map Prod.fst = parNames ps := by
      simp [parPairs, parNames, List.map_map]
    rw [hmapeq]
    simpa [parNames] using of_decide_eq_true hnodup
  -- the resolver after the validation pass
  set rv := (inorder ps).foldl (fun r p => Resolver_validateLocal r p.1 p.2)
    { r with params := map_Default } with hrv
  have hok2 : ¬ (rv.state ≠ Resolution.ok) := by
    rw [hv.1]
    exact fun h => h rfl
  -- both runs reduce to the insert pass over the same post-merge resolver
  have hmain : ∀ (rr : Resolver),
      (inorder ps).foldl (fun r p => Resolver_validateLocal r p.1 p.2)
          { rr with params := map_Default } = { rv with locals := rr.locals } →
      Resolver_insertLocals rr ps =
        (inorder ps).foldl (fun r p => Resolver_insertLocal r p.1 p.2)
          { rv with locals := (map_Merge map_Default rv.params).1,
                    params := map_Free rv.params } := by
    intro rr hfold
    unfold Resolver_insertLocals
    simp only [hiter, hiter2]
    rw [hfold]
    have hst : ¬ (({ rv with locals := rr.locals } : Resolver).state ≠ Resolution.ok) :=
      hok2
    rw [if_neg hst]
  have hlocrv : rv.locals = r.locals := hv.2.2.2.1
  have hveq : (inorder ps).foldl (fun r p => Resolver_validateLocal r p.1 p.2)
      { r with params := map_Default } = { rv with locals := r.locals } := by
    conv_rhs => rw [← hlocrv]
  have hres : Resolver_insertLocals r ps =
      (inorder ps).foldl (fun r p => Resolver_insertLocal r p.1 p.2)
        { rv with locals := (map_Merge map_Default rv.params).1,
                  params := map_Free rv.params } :=
    hmain r hveq
  -- the merged Locals table binds exactly the parameters
  have hwfp : mapWF rv.params := hv.2.1
  have hmg := mergeFold_spec (mapEntries rv.params) map_Default [] []
    mapWF_default hwfp.2.2.2
  have hmgeq : map_Merge map_Default rv.params =
      (mapEntries rv.params).foldl mergeStep (map_Default, [], []) :=
    map_Merge_eq_foldl map_Default rv.params
  have hwfmg : mapWF (map_Merge map_Default rv.params).1 := by
    rw [hmgeq]
    exact hmg.1
  have hgetmg : ∀ n, map_Get (map_Merge map_Default rv.params).1 n =
      parAssoc ps n := by
    intro n
    rw [hmgeq, hmg.2.1 n, ← map_Get_eq_entriesFind rv.params hwfp n]
    have hgp : map_Get rv.params n = assocLast (parPairs ps) n := by
      have := hv.2.2.1 n
      simpa [parPairs] using this
    rw [hgp]
    unfold parAssoc
    cases hass : assocLast (parPairs ps) n with
    | some v => rfl
    | none => rw [map_Get_default]
  -- the re-insert pass
  have hbind : ∀ p ∈ inorder ps, assocLast (parPairs ps) p.2.name = some p.1 := by
    intro p hp
    exact assocLast_of_mem_nodup (List.mem_map.mpr ⟨p, hp, rfl⟩) hkeysnd
  have hins := insertLocal_fold (inorder ps)
    { rv with locals := (map_Merge map_Default rv.params).1,
              params := map_Free rv.params } (parPairs ps)
    hv.1 hwfmg hgetmg hbind
  rw [hres]
  refine ⟨hins.1, hins.2.1, ?_, ?_, ?_, ?_, ?_⟩
  · intro n
    rw [hins.2.2.1 n]
    rfl
  · rw [hins.2.2.2.1]
    exact hv.2.2.2.2.1
  · rw [hins.2.2.2.2.2.1]
    exact hv.2.2.2.2.2.1
  · rw [hins.2.2.2.2.2.2]
    exact hv.2.2.2.2.2.2.1
  · intro L
    have hveqL : (inorder ps).foldl (fun r p => Resolver_validateLocal r p.1 p.2)
        { ({ r with locals := L }) with params := map_Default } =
        { rv with locals := L } := by
      have hstep := hv.2.2.2.2.2.2.2 L
      have hcomm : ({ ({ r with locals := L }) with params := map_Default } : Resolver) =
          { ({ r with params := map_Default }) with locals := L } := rfl
      rw [hcomm, hstep]
    exact hmain { r with locals := L } hveqL

/-- Claim C8: entering a lambda replaces the `Locals` table rather than
extending it.  For a lambda with a duplicate-free parameter list, reached
with the resolver in state OK: (1) resolving the lambda is independent of
whatever `Locals` table the enclosing function or lambda had installed;
(2) a name in the lambda body that is one of the lambda's own parameters
resolves to that parameter's key; (3) a name bound only globally resolves
to the global key; (4) a name bound neither by the lambda's parameters nor
globally ends in `NotFound` with the name captured — so identifiers bound
by an enclosing scope's parameters are not visible inside the lambda. -/
theorem lambda_scope_replaces_locals (r : Resolver) (ps : Tree Par)
    (n : Str) (sp : Span) (body : Expr)
    (hok : r.state = .ok) (hnodup : nodupStr (parNames ps) = true) :
    (∀ L, Resolver_Expr { r with locals := L } (.lam ps body) =
        Resolver_Expr r (.lam ps body)) ∧
    (∀ id, parAssoc ps n = some id →
      Resolver_Expr r (.lam ps (.unresolved n sp)) =
        (Resolver_insertLocals r ps, .lam ps (.resolved id))) ∧
    (∀ id, parAssoc ps n = none → map_Get r.globals n = some id →
      Resolver_Expr r (.lam ps (.unresolved n sp)) =
        (Resolver_insertLocals r ps, .lam ps (.resolved id))) ∧
    (parAssoc ps n = none → map_Get r.globals n = none →
      (Resolver_Expr r (.lam ps (.unresolved n sp))).1.state = .notFound ∧
      (Resolver_Expr r (.lam ps (.unresolved n sp))).1.nameText = some n ∧
      (Resolver_Expr r (.lam ps (.unresolved n sp))).2 =
        .lam ps (.unresolved n sp)) := by
  obtain ⟨h1, hwf, h3, h4, h5, h6, h7⟩ := insertLocals_spec r ps hok hnodup
  have hnn : ¬ ((Resolver_insertLocals r ps).state ≠ Resolution.ok) := by
    rw [h1]
    exact fun h => h rfl
  refine ⟨?_, ?_, ?_, ?_⟩
  · intro L
    simp only [Resolver_Expr]
    rw [h7 L]
  · intro id hid
    have hg : map_Get (Resolver_insertLocals r ps).locals n = some id := by
      rw [h3 n]
      exact hid
    simp only [Resolver_Expr]
    rw [if_neg hnn]
    simp only [hg]
  · intro id hid hgl
    have hg : map_Get (Resolver_insertLocals r ps).locals n = none := by
      rw [h3 n]
      exact hid
    have hg2 : map_Get (Resolver_insertLocals r ps).globals n = some id := by
      rw [h4]
      exact hgl
    simp only [Resolver_Expr]
    rw [if_neg hnn]
    simp only [hg, hg2]
  · intro hid hgl
    have hg : map_Get (Resolver_insertLocals r ps).locals n = none := by
      rw [h3 n]
      exact hid
    have hg2 : map_Get (Resolver_insertLocals r ps).globals n = none := by
      rw [h4]
      exact hgl
    refine ⟨?_, ?_, ?_⟩ <;>
      · simp only [Resolver_Expr]
        rw [if_neg hnn]
        simp only [hg, hg2]

/-- The claim C8 theorem at a concrete instance: with the enclosing scope
binding `x` in `Locals`, the lambda `(y) => …` makes a body reference to
`x` (bound neither by `y` nor globally) end in `NotFound` with the name
`x` captured and the node left unresolved. -/
theorem lambda_scope_replaces_locals_witness :
    rHasFx.state = .ok ∧ nodupStr (parNames psY) = true ∧
    parAssoc psY [120] = none ∧ map_Get rHasFx.globals [120] = none ∧
    ((Resolver_Expr rHasFx (.lam psY (.unresolved [120] spB))).1.state =
        .notFound ∧
      (Resolver_Expr rHasFx (.lam psY (.unresolved [120] spB))).1.nameText =
        some [120] ∧
      (Resolver_Expr rHasFx (.lam psY (.unresolved [120] spB))).2 =
        .lam psY (.unresolved [120] spB)) :=
  ⟨rfl, by decide, by decide, rfl,
    (lambda_scope_replaces_locals rHasFx psY [120] spB
        (.unresolved [120] spB) rfl (by decide)).2.2.2 (by decide) rfl⟩

mutual

/-- Walking an expression that is resolvable at every point of use
(`envOKB`) from an OK resolver whose tables realize the `L`/`G`
environments: the state stays OK, the rewritten expression has no
`Unresolved` node left, the globals are untouched, the locals realize the
threaded environment `LAfterE`, and the bound parameter keys are
preserved. -/
theorem resolve_expr_ok : ∀ (e : Expr), ∀ (r : Resolver) (G L : List (Str × Int)),
    r.state = .ok →
    (∀ n, map_Get r.locals n = assocLast L n) →
    (∀ n, map_Get r.globals n = assocLast G n) →
    envOKB G L e = true →
    (Resolver_Expr r e).1.state = .ok ∧
    exprNoUnresolvedB (Resolver_Expr r e).2 = true ∧
    (Resolver_Expr r e).1.globals = r.globals ∧
    (∀ n, map_Get (Resolver_Expr r e).1.locals n = assocLast (LAfterE L e) n) ∧
    exprParamKeys (Resolver_Expr r e).2 = exprParamKeys e
  | .app f args => by
    intro r G L h1 hL hG he
    simp only [envOKB, Bool.and_eq_true] at he
    obtain ⟨hf, ha⟩ := he
    obtain ⟨p1, p2, p3, p4, p5⟩ := resolve_expr_ok f r G L h1 hL hG hf
    have hG2 : ∀ n, map_Get (Resolver_Expr r f).1.globals n = assocLast G n :=
      fun n => by rw [p3]; exact hG n
    obtain ⟨q1, q2, q3, q4, q5⟩ :=
      resolve_args_ok args (Resolver_Expr r f).1 G (LAfterE L f) p1 p4 hG2 ha
    simp only [Resolver_Expr]
    rw [if_neg (fun hn => hn p1)]
    refine ⟨q1, ?_, ?_, ?_, ?_⟩
    · simp only [exprNoUnresolvedB, Bool.and_eq_true]
      exact ⟨p2, q2⟩
    · rw [q3]
      exact p3
    · intro n
      simp only [LAfterE]
      exact q4 n
    · simp only [exprParamKeys]
      rw [p5, q5]
  | .ite c tb eb => by
    intro r G L h1 hL hG he
    simp only [envOKB, Bool.and_eq_true] at he
    obtain ⟨⟨hc, ht⟩, he'⟩ := he
    obtain ⟨p1, p2, p3, p4, p5⟩ := resolve_expr_ok c r G L h1 hL hG hc
    have hG2 : ∀ n, map_Get (Resolver_Expr r c).1.globals n = assocLast G n :=
      fun n => by rw [p3]; exact hG n
    obtain ⟨q1, q2, q3, q4, q5⟩ :=
      resolve_expr_ok tb (Resolver_Expr r c).1 G (LAfterE L c) p1 p4 hG2 ht
    have hG3 : ∀ n,
        map_Get (Resolver_Expr (Resolver_Expr r c).1 tb).1.globals n =
          assocLast G n :=
      fun n => by rw [q3]; exact hG2 n
    obtain ⟨w1, w2, w3, w4, w5⟩ :=
      resolve_expr_ok eb (Resolver_Expr (Resolver_Expr r c).1 tb).1 G
        (LAfterE (LAfterE L c) tb) q1 q4 hG3 he'
    simp only [Resolver_Expr]
    rw [if_neg (fun hn => hn p1), if_neg (fun hn => hn q1)]
    refine ⟨w1, ?_, ?_, ?_, ?_⟩
    · simp only [exprNoUnresolvedB, Bool.and_eq_true]
      exact ⟨⟨p2, q2⟩, w2⟩
    · rw [w3, q3]
      exact p3
    · intro n
      simp only [LAfterE]
      exact w4 n
    · simp only [exprParamKeys]
      rw [p5, q5, w5]
  | .lam ps b => by
    intro r G L h1 hL hG he
    simp only [envOKB, Bool.and_eq_true] at he
    obtain ⟨hnd, hb⟩ := he
    obtain ⟨q1, q2, q3, q4, q5, q6, q7⟩ := insertLocals_spec r ps h1 hnd
    have hLb : ∀ n, map_Get (Resolver_insertLocals r ps).locals n =
        assocLast (parPairs ps) n := fun n => q3 n
    have hGb : ∀ n, map_Get (Resolver_insertLocals r ps).globals n =
        assocLast G n := fun n => by rw [q4]; exact hG n
    obtain ⟨p1, p2, p3, p4, p5⟩ :=
      resolve_expr_ok b (Resolver_insertLocals r ps) G (parPairs ps) q1 hLb hGb hb
    simp only [Resolver_Expr]
    rw [if_neg (fun hn => hn q1)]
    refine ⟨p1, ?_, ?_, ?_, ?_⟩
    · simp only [exprNoUnresolvedB]
      exact p2
    · rw [p3]
      exact q4
    · intro n
      simp only [LAfterE]
      exact p4 n
    · simp only [exprParamKeys]
      rw [p5]
  | .unresolved n sp => by
    intro r G L h1 hL hG he
    simp only [envOKB, Bool.or_eq_true] at he
    cases hLn : assocLast L n with
    | some id =>
      have hg : map_Get r.locals n = some id := by rw [hL n]; exact hLn
      simp only [Resolver_Expr, hg]
      exact ⟨h1, by trivial, by trivial, fun n' => by simp only [LAfterE]; exact hL n', by trivial⟩
    | none =>
      have hGn : (assocLast G n).isSome = true := by
        rcases he with h | h
        · rw [hLn] at h
          cases h
        · exact h
      obtain ⟨id, hid⟩ := Option.isSome_iff_exists.mp hGn
      have hgl : map_Get r.locals n = none := by rw [hL n]; exact hLn
      have hgg : map_Get r.globals n = some id := by rw [hG n]; exact hid
      simp only [Resolver_Expr, hgl, hgg]
      exact ⟨h1, by trivial, by trivial, fun n' => by simp only [LAfterE]; exact hL n', by trivial⟩
  | .num sp => by
    intro r G L h1 hL hG _
    simp only [Resolver_Expr]
    exact ⟨h1, by trivial, by trivial, fun n => by simp only [LAfterE]; exact hL n, by trivial⟩
  | .unit => by
    intro r G L h1 hL hG _
    simp only [Resolver_Expr]
    exact ⟨h1, by trivial, by trivial, fun n => by simp only [LAfterE]; exact hL n, by trivial⟩
  | .fls => by
    intro r G L h1 hL hG _
    simp only [Resolver_Expr]
    exact ⟨h1, by trivial, by trivial, fun n => by simp only [LAfterE]; exact hL n, by trivial⟩
  | .tru => by
    intro r G L h1 hL hG _
    simp only [Resolver_Expr]
    exact ⟨h1, by trivial, by trivial, fun n => by simp only [LAfterE]; exact hL n, by trivial⟩
  | .resolved id => by
    intro r G L h1 hL hG he
    simp only [envOKB] at he
    exact (Bool.false_ne_true he).elim

/-- `resolve_expr_ok` threaded over an argument list (the `slice_Iter`
with `Resolver_resolveArg`, which under an always-OK state visits the
arguments exactly as the environment threading does). -/
theorem resolve_args_ok : ∀ (args : List Expr), ∀ (r : Resolver) (G L : List (Str × Int)),
    r.state = .ok →
    (∀ n, map_Get r.locals n = assocLast L n) →
    (∀ n, map_Get r.globals n = assocLast G n) →
    argsOKB G L args = true →
    (Resolver_args r args).1.state = .ok ∧
    argsNoUnresolvedB (Resolver_args r args).2 = true ∧
    (Resolver_args r args).1.globals = r.globals ∧
    (∀ n, map_Get (Resolver_args r args).1.locals n =
      assocLast (LAfterArgs L args) n) ∧
    argsParamKeys (Resolver_args r args).2 = argsParamKeys args
  | [] => by
    intro r G L h1 hL hG _
    simp only [Resolver_args]
    exact ⟨h1, by trivial, by trivial, fun n => by simp only [LAfterArgs]; exact hL n, by trivial⟩
  | a :: rest => by
    intro r G L h1 hL hG he
    simp only [argsOKB, Bool.and_eq_true] at he
    obtain ⟨ha, hrest⟩ := he
    obtain ⟨p1, p2, p3, p4, p5⟩ := resolve_expr_ok a r G L h1 hL hG ha
    have hG2 : ∀ n, map_Get (Resolver_Expr r a).1.globals n = assocLast G n :=
      fun n => by rw [p3]; exact hG n
    obtain ⟨q1, q2, q3, q4, q5⟩ :=
      resolve_args_ok rest (Resolver_Expr r a).1 G (LAfterE L a) p1 p4 hG2 hrest
    simp only [Resolver_args]
    refine ⟨q1, ?_, ?_, ?_, ?_⟩
    · simp only [argsNoUnresolvedB, Bool.and_eq_true]
      exact ⟨p2, q2⟩
    · rw [q3]
      exact p3
    · intro n
      simp only [LAfterArgs]
      exact q4 n
    · simp only [argsParamKeys]
      rw [p5, q5]

end

/-- A left fold of conjunction equals `all` applied after the seed. -/
theorem foldl_and_eq_all {α : Type} (g : α → Bool) :
    ∀ (l : List α) (b : Bool), l.foldl (fun s x => s && g x) b = (b && l.all g) := by
  intro l
  induction l with
  | nil => intro b; simp
  | cons x xs ih =>
    intro b
    rw [List.foldl_cons, ih, List.all_cons, Bool.and_assoc]

/-- Walking a sequentially valid definition list (`defsSeqOKB`) with
`Resolver_insertGlobal` from an OK resolver whose globals realize `G`: the
state stays OK, the globals accumulate exactly the definitions' bindings,
every rewritten body has no `Unresolved` node left, and all binding keys
(definition, parameter and lambda-parameter keys) are preserved. -/
theorem defsFold_spec (l : List (Int × DefData)) :
    ∀ (r : Resolver) (G : List (Str × Int)),
    r.state = .ok → mapWF r.globals →
    (∀ n, map_Get r.globals n = assocLast G n) →
    defsSeqOKB G l = true →
    (iterMapList (fun r k d => Resolver_insertGlobal r k d) r l).1.state = .ok ∧
    mapWF (iterMapList (fun r k d => Resolver_insertGlobal r k d) r l).1.globals ∧
    (∀ n, map_Get
        (iterMapList (fun r k d => Resolver_insertGlobal r k d) r l).1.globals n =
      assocLast (G ++ defsBinds l) n) ∧
    ((iterMapList (fun r k d => Resolver_insertGlobal r k d) r l).2.all
      (fun p => exprNoUnresolvedB p.2.body)) = true ∧
    defsAllKeys (iterMapList (fun r k d => Resolver_insertGlobal r k d) r l).2 =
      defsAllKeys l := by
  induction l with
  | nil =>
    intro r G h1 hwg hG _
    simp only [iterMapList, defsBinds, List.map_nil, List.append_nil]
    exact ⟨h1, hwg, fun n => hG n, by trivial, by trivial⟩
  | cons kd rest ih =>
    obtain ⟨k, d⟩ := kd
    intro r G h1 hwg hG hseq
    simp only [defsSeqOKB, Bool.and_eq_true] at hseq
    obtain ⟨⟨⟨hnew, hnd⟩, henv⟩, hrest⟩ := hseq
    have hgone : map_Get r.globals d.name = none := by
      rw [hG d.name]
      cases hass : assocLast G d.name with
      | none => rfl
      | some v => rw [hass] at hnew; cases hnew
    have hms := map_Set_spec r.globals d.name k hwg
    have hflag : (map_Set r.globals d.name k).2 = false := by
      rw [hms.2.1, hgone]
      rfl
    obtain ⟨q1, q2, q3, q4, q5, q6, q7⟩ :=
      insertLocals_spec { r with globals := (map_Set r.globals d.name k).1 }
        d.params h1 hnd
    have hGnew : ∀ n, map_Get (map_Set r.globals d.name k).1 n =
        assocLast (G ++ [(d.name, k)]) n := by
      intro n
      rw [assocLast_snoc]
      by_cases hn : d.name = n
      · rw [if_pos hn, ← hn]
        exact hms.2.2.1
      · rw [if_neg hn, hms.2.2.2 n (fun h => hn h.symm), hG n]
    have hG3 : ∀ n, map_Get (Resolver_insertLocals
        { r with globals := (map_Set r.globals d.name k).1 } d.params).globals n =
        assocLast (G ++ [(d.name, k)]) n := by
      intro n
      rw [q4]
      exact hGnew n
    have hL3 : ∀ n, map_Get (Resolver_insertLocals
        { r with globals := (map_Set r.globals d.name k).1 } d.params).locals n =
        assocLast (parPairs d.params) n := fun n => q3 n
    obtain ⟨pb1, pb2, pb3, pb4, pb5⟩ :=
      resolve_expr_ok d.body
        (Resolver_insertLocals
          { r with globals := (map_Set r.globals d.name k).1 } d.params)
        (G ++ [(d.name, k)]) (parPairs d.params) q1 hL3 hG3 henv
    have hstep : Resolver_insertGlobal r k d =
        ({ (Resolver_Expr (Resolver_insertLocals { r with globals := (map_Set r.globals d.name k).1 } d.params) d.body).1 with locals := map_Free (Resolver_Expr (Resolver_insertLocals { r with globals := (map_Set r.globals d.name k).1 } d.params) d.body).1.locals },
         { d with body := (Resolver_Expr (Resolver_insertLocals { r with globals := (map_Set r.globals d.name k).1 } d.params) d.body).2 }) := by
      simp only [Resolver_insertGlobal, hflag, Bool.false_eq_true, if_false]
      rw [if_neg (fun hn => hn h1), if_neg (fun hn => hn q1)]
    have hG4 : ∀ n, map_Get ({ (Resolver_Expr (Resolver_insertLocals { r with globals := (map_Set r.globals d.name k).1 } d.params) d.body).1 with locals := map_Free (Resolver_Expr (Resolver_insertLocals { r with globals := (map_Set r.globals d.name k).1 } d.params) d.body).1.locals } : Resolver).globals n = assocLast (G ++ [(d.name, k)]) n := by
      intro n
      show map_Get (Resolver_Expr _ d.body).1.globals n = _
      rw [pb3]
      exact hG3 n
    have hwg4 : mapWF ({ (Resolver_Expr (Resolver_insertLocals { r with globals := (map_Set r.globals d.name k).1 } d.params) d.body).1 with locals := map_Free (Resolver_Expr (Resolver_insertLocals { r with globals := (map_Set r.globals d.name k).1 } d.params) d.body).1.locals } : Resolver).globals := by
      show mapWF (Resolver_Expr _ d.body).1.globals
      rw [pb3, q4]
      exact hms.1
    obtain ⟨c1, c2, c3, c4, c5⟩ :=
      ih { (Resolver_Expr (Resolver_insertLocals { r with globals := (map_Set r.globals d.name k).1 } d.params) d.body).1 with locals := map_Free (Resolver_Expr (Resolver_insertLocals { r with globals := (map_Set r.globals d.name k).1 } d.params) d.body).1.locals }
        (G ++ [(d.name, k)]) pb1 hwg4 hG4 hrest
    have hGapp : G ++ defsBinds ((k, d) :: rest) =
        (G ++ [(d.name, k)]) ++ defsBinds rest := by
      simp [defsBinds]
    simp only [iterMapList, hstep]
    refine ⟨c1, c2, ?_, ?_, ?_⟩
    · intro n
      rw [hGapp]
      exact c3 n
    · simp only [List.all_cons, Bool.and_eq_true]
      exact ⟨pb2, c4⟩
    · simp only [defsAllKeys]
      rw [pb5, c5]

/-- Claim C9 (amended): the resolver walks the definitions in registry
order inserting each global before resolving its body, and a lambda
discards the enclosing locals for the rest of the walk; so the round trip
holds under the sequential hypothesis `progSeqOKB` (each definition's name
fresh, its parameters duplicate-free, and every reference resolvable at
its point of use against the globals seen so far and the threaded locals):
the run ends in state OK, every originally `Unresolved` node is resolved
(no `Unresolved` node remains), the binding identifiers of Definitions and
Parameters are preserved, and when they were pairwise distinct before they
remain pairwise distinct. -/
theorem resolver_roundtrip_amended (p : Program)
    (hseq : progSeqOKB p = true) :
    (Resolver_Program Resolver_Init p).1.state = .ok ∧
    progNoUnresolvedB (Resolver_Program Resolver_Init p).2 = true ∧
    progAllKeys (Resolver_Program Resolver_Init p).2 = progAllKeys p ∧
    (nodupInt (progAllKeys p) = true →
      nodupInt (progAllKeys (Resolver_Program Resolver_Init p).2) = true) := by
  have hbr := tree_IterMap_eq (fun r k d => Resolver_insertGlobal r k d) p
    Resolver_Init
  have hGi : ∀ n, map_Get Resolver_Init.globals n = assocLast [] n := by
    intro n
    show map_Get map_Default n = _
    rw [map_Get_default]
    rfl
  obtain ⟨c1, c2, c3, c4, c5⟩ :=
    defsFold_spec (inorder p) Resolver_Init [] rfl mapWF_default hGi hseq
  have hstate : (Resolver_Program Resolver_Init p).1.state = .ok := by
    show (tree_IterMap (fun r k d => Resolver_insertGlobal r k d)
      Resolver_Init p).1.state = .ok
    rw [hbr.1]
    exact c1
  have hin : inorder (Resolver_Program Resolver_Init p).2 =
      (iterMapList (fun r k d => Resolver_insertGlobal r k d) Resolver_Init
        (inorder p)).2 := by
    show inorder (tree_IterMap (fun r k d => Resolver_insertGlobal r k d)
      Resolver_Init p).2 = _
    exact hbr.2
  have hkeys : progAllKeys (Resolver_Program Resolver_Init p).2 =
      progAllKeys p := by
    unfold progAllKeys
    rw [hin, c5]
  refine ⟨hstate, ?_, hkeys, ?_⟩
  · unfold progNoUnresolvedB
    rw [tree_Iter_eq_foldl, hin,
      foldl_and_eq_all (fun pr : Int × DefData => exprNoUnresolvedB pr.2.body),
      Bool.true_and]
    exact c4
  · intro hnd
    rw [hkeys]
    exact hnd

/-- The claim C9 amended theorem at the concrete one-definition program
`pEx` (a definition `f` with parameter `y` whose body references `y`): the
sequential hypothesis holds by evaluation, and the resolver run ends OK
with no `Unresolved` node left. -/
theorem resolver_roundtrip_amended_witness :
    progSeqOKB pEx = true ∧
    (Resolver_Program Resolver_Init pEx).1.state = .ok ∧
    progNoUnresolvedB (Resolver_Program Resolver_Init pEx).2 = true :=
  ⟨by decide, (resolver_roundtrip_amended pEx (by decide)).1,
    (resolver_roundtrip_amended pEx (by decide)).2.1⟩

end Oxn
